import Mathlib

/-!
Shallow embedding of the rag.js core: the text chunker (src/chunker.ts) and the
vector store with its JSON and binary codecs (src/vector-store.ts).

Modelling conventions:
- JS strings are modelled as lists of characters (`Str`); `s.length` is list length.
- JS numbers carried by embeddings, scores and thresholds are modelled as exact
  rationals.  The one place the code quantizes (writing a `Float32Array` in
  `toBinary`) is modelled by an explicit round-to-nearest-even binary32
  quantization (`roundF32`).
- Thrown exceptions are modelled with `Except`; each distinct error message of
  the source corresponds to one constructor of `VErr` / `ChunkErr`.
- Cosine-similarity scores have the form `dot / (sqrt nA * sqrt nB)`.  To keep
  every definition executable we carry the pair `(num, den)` standing for the
  real number `num / sqrt den`; `scoreKey` maps it monotonically into the
  rationals (proved against the real semantics below), which is how score
  comparisons of the source are decided.
-/

namespace RagJS

/-! ### Kernel-evaluable rational arithmetic

The library's Rat.add, Rat.mul, Rat.sub and Rat.inv are irreducible, which
blocks kernel evaluation (decide / rfl) of any concrete computation involving
them.  The operations below are the same rational arithmetic built on the
reducible smart constructor mkRat; each is proved equal to the corresponding
standard operation (qadd_eq and friends), and those equations are what every
semantic proof uses. -/

/-- Addition on ℚ through mkRat. -/
def qadd (a b : ℚ) : ℚ := mkRat (a.num * b.den + b.num * a.den) (a.den * b.den)

/-- Multiplication on ℚ through mkRat. -/
def qmul (a b : ℚ) : ℚ := mkRat (a.num * b.num) (a.den * b.den)

/-- Negation on ℚ through mkRat. -/
def qneg (a : ℚ) : ℚ := mkRat (-a.num) a.den

/-- Subtraction on ℚ through mkRat. -/
def qsub (a b : ℚ) : ℚ := qadd a (qneg b)

/-- Inverse on ℚ through mkRat (0 maps to 0, as Rat.inv does). -/
def qinv (a : ℚ) : ℚ :=
  if a.num < 0 then mkRat (-(a.den : ℤ)) a.num.natAbs
  else mkRat (a.den : ℤ) a.num.natAbs

/-- Division on ℚ through mkRat. -/
def qdiv (a b : ℚ) : ℚ := qmul a (qinv b)

/-- Absolute value on ℚ through mkRat. -/
def qabs (a : ℚ) : ℚ := mkRat (a.num.natAbs : ℤ) a.den

/-- Nonnegative integer power on ℚ through qmul. -/
def qpowNat (a : ℚ) : Nat → ℚ
  | 0 => 1
  | n + 1 => qmul a (qpowNat a n)

/-- Integer power on ℚ through qmul and qinv. -/
def qzpow (a : ℚ) : ℤ → ℚ
  | .ofNat n => qpowNat a n
  | .negSucc n => qinv (qpowNat a (n + 1))

/-- Floor of a rational: Euclidean division of numerator by (positive)
denominator. -/
def qfloor (a : ℚ) : ℤ := Int.ediv a.num (a.den : ℤ)

/-- Fuel-structured floor base-2 logarithm on naturals. -/
def nlog2F : Nat → Nat → Nat
  | 0, _ => 0
  | fuel + 1, n => if n ≥ 2 then nlog2F fuel (n / 2) + 1 else 0

/-- Floor base-2 logarithm on naturals. -/
def nlog2 (n : Nat) : Nat := nlog2F n n

/-- JS chunk metadata (`Record<string, unknown>`), modelled as a list of
string key/value pairs; the core treats it as an opaque value that is only
stored, serialized and fed to the caller-supplied search filter. -/
abbrev Metadata := List (String × String)

/-- EmbeddedChunk of src/types.ts: id, content, optional metadata, embedding. -/
structure EmbeddedChunk where
  id : String
  content : String
  metadata : Option Metadata
  embedding : List ℚ
deriving DecidableEq

/-- The chunk view exposed in search results (no embedding field). -/
structure ChunkView where
  id : String
  content : String
  metadata : Option Metadata
deriving DecidableEq

/-- Error kinds of src/vector-store.ts, one per distinct thrown message:
dimension mismatch (insert, query, or raw cosine comparison), bad binary
magic, unsupported version, JS RangeError from out-of-bounds buffer reads,
JS SyntaxError from JSON.parse, JS TypeError from indexing a missing
chunkMeta entry. -/
inductive VErr where
  | dimensionMismatch (expected got : Nat)
  | invalidFormat
  | unsupportedVersion (v : Nat)
  | rangeError
  | syntaxError
  | typeError
deriving DecidableEq

/-- Sum over paired elements of a[i]*b[i]; extra elements of the longer list
are ignored exactly as the source loop `for i in 0..a.length` reads
`undefined` past the end, but `cosineSimilarity` rejects unequal lengths
before this can matter. -/
def dotProduct : List ℚ → List ℚ → ℚ
  | a :: as, b :: bs => qadd (qmul a b) (dotProduct as bs)
  | _, _ => 0

/-- normA of the source: the sum of squares of a vector. -/
def sumSq (a : List ℚ) : ℚ := dotProduct a a

/-- A cosine-similarity score, standing for the real number
`num / Real.sqrt den`.  The source computes `dot / (sqrt normA * sqrt normB)`;
we keep `num = dot` and `den = normA * normB` (note
`sqrt normA * sqrt normB = sqrt (normA * normB)` for nonnegative inputs). -/
structure CosScore where
  num : ℚ
  den : ℚ
deriving DecidableEq

/-- cosineSimilarity of src/vector-store.ts.  A mismatch in lengths throws;
`magnitude === 0` holds exactly when `normA * normB = 0` (over exact reals),
and then the score is literally 0 (represented as `0 / sqrt 1`). -/
def cosineSimilarity (a b : List ℚ) : Except VErr CosScore :=
  if a.length ≠ b.length then .error (.dimensionMismatch a.length b.length)
  else
    let magSq := qmul (sumSq a) (sumSq b)
    if magSq = 0 then .ok ⟨0, 1⟩
    else .ok ⟨dotProduct a b, magSq⟩

/-- Monotone rational key of a score: `num / sqrt den` and
`sign num * num ^ 2 / den` are ordered identically (see
`scoreVal_le_scoreVal_iff`); the source's float comparisons
`score >= threshold` and the sort comparator are modelled through this key. -/
def scoreKey (s : CosScore) : ℚ :=
  if 0 ≤ s.num then qdiv (qmul s.num s.num) s.den
  else qneg (qdiv (qmul s.num s.num) s.den)

/-- A plain rational (e.g. the threshold option) viewed as a score:
`t = t / sqrt 1`. -/
def ratScore (t : ℚ) : CosScore := ⟨t, 1⟩

/-- VectorStore state: model name, declared dimensions, ordered records. -/
structure VectorStore where
  model : String
  dimensions : Nat
  chunks : List EmbeddedChunk
deriving DecidableEq

/-- The constructor `new VectorStore(model, dimensions)`. -/
def VectorStore.new (model : String) (dimensions : Nat) : VectorStore :=
  ⟨model, dimensions, []⟩

/-- validateDimensions: throws when the embedding length differs from the
declared dimensions. -/
def VectorStore.validateDimensions (s : VectorStore) (embedding : List ℚ) :
    Except VErr Unit :=
  if embedding.length ≠ s.dimensions then
    .error (.dimensionMismatch s.dimensions embedding.length)
  else .ok ()

/-- add: validate, then push. -/
def VectorStore.add (s : VectorStore) (c : EmbeddedChunk) :
    Except VErr VectorStore := do
  let _ ← s.validateDimensions c.embedding
  .ok { s with chunks := s.chunks ++ [c] }

/-- addAll: add each chunk in order; the first failure aborts. -/
def VectorStore.addAll (s : VectorStore) : List EmbeddedChunk →
    Except VErr VectorStore
  | [] => .ok s
  | c :: rest => do
    let s' ← s.add c
    s'.addAll rest

/-- remove: findIndex of the first record with the given id, then splice. -/
def VectorStore.remove (s : VectorStore) (id : String) : Bool × VectorStore :=
  match s.chunks.findIdx? (fun c => c.id = id) with
  | none => (false, s)
  | some i => (true, { s with chunks := s.chunks.eraseIdx i })

/-- clear: drop all records. -/
def VectorStore.clear (s : VectorStore) : VectorStore := { s with chunks := [] }

/-- The unique-ids invariant claimed by the specification. -/
def uniqueIds (s : VectorStore) : Prop := (s.chunks.map (·.id)).Nodup

instance (s : VectorStore) : Decidable (uniqueIds s) := by
  unfold uniqueIds; infer_instance

/-- Search options with their defaults (topK 5, threshold 0, no filter). -/
structure SearchOptions where
  topK : Option Nat := none
  threshold : Option ℚ := none
  filter : Option (Option Metadata → Bool) := none

/-- A search result: the record without its embedding, plus the score. -/
structure SearchResult where
  chunk : ChunkView
  score : CosScore
deriving DecidableEq

/-- The result-collection loop of search: walk records in insertion order,
skip records rejected by the filter, compute the similarity (propagating a
thrown mismatch), keep scores that reach the threshold. -/
def collectResults (q : List ℚ) (threshold : ℚ) (filter : Option Metadata → Bool) :
    List EmbeddedChunk → Except VErr (List SearchResult)
  | [] => .ok []
  | c :: rest =>
    if filter c.metadata then do
      let s ← cosineSimilarity q c.embedding
      let rs ← collectResults q threshold filter rest
      .ok (if scoreKey (ratScore threshold) ≤ scoreKey s then
             ⟨⟨c.id, c.content, c.metadata⟩, s⟩ :: rs
           else rs)
    else collectResults q threshold filter rest

/-- Insert a result into a descending-sorted list, after every element with a
greater-or-equal score: the placement a stable sort gives a later element. -/
def insertDesc (r : SearchResult) : List SearchResult → List SearchResult
  | [] => [r]
  | x :: xs =>
    if scoreKey r.score ≤ scoreKey x.score then x :: insertDesc r xs
    else r :: x :: xs

/-- The stable descending sort `results.sort((a, b) => b.score - a.score)`
(JS Array.prototype.sort is required to be stable). -/
def stableSortDesc (l : List SearchResult) : List SearchResult :=
  l.foldl (fun acc r => insertDesc r acc) []

/-- search of src/vector-store.ts: defaults, dimension validation, collect,
stable sort by descending score, truncate to topK. -/
def VectorStore.search (s : VectorStore) (q : List ℚ) (opts : SearchOptions) :
    Except VErr (List SearchResult) := do
  let topK := opts.topK.getD 5
  let threshold := opts.threshold.getD 0
  let filter := opts.filter.getD (fun _ => true)
  let _ ← s.validateDimensions q
  let results ← collectResults q threshold filter s.chunks
  .ok ((stableSortDesc results).take topK)

/-! ## Codec: logical form, JSON encoding, binary encoding

The source serializes metadata with `JSON.stringify` / `TextEncoder` and reads
it back with `TextDecoder` / `JSON.parse`.  We model that platform pair by an
explicit injective byte serialization with a matching parser; the claims under
verification depend on the codec structure (header fields, length prefix,
padding arithmetic, per-record layout), not on the JSON surface syntax. -/

/-- SerializedIndex of src/types.ts. -/
structure SerializedIndex where
  version : Nat
  model : String
  dimensions : Nat
  chunks : List EmbeddedChunk
deriving DecidableEq

/-- serialize: the logical form, with the current INDEX_VERSION = 1. -/
def VectorStore.serialize (s : VectorStore) : SerializedIndex :=
  ⟨1, s.model, s.dimensions, s.chunks⟩

/-- fromSerialized: reject any version other than 1, then rebuild a fresh
store through addAll (which re-validates every embedding length). -/
def VectorStore.fromSerialized (d : SerializedIndex) : Except VErr VectorStore :=
  if d.version ≠ 1 then .error (.unsupportedVersion d.version)
  else (VectorStore.new d.model d.dimensions).addAll d.chunks

/-- Little-endian base-255 digits of a natural number (fuel-structured so that
concrete evaluation reduces in the kernel); 255 never occurs as a digit, so it
serves as the terminator in `encNat`. -/
def natDigitsAux : Nat → Nat → List Nat
  | 0, _ => []
  | _, 0 => []
  | fuel + 1, n + 1 => (n + 1) % 255 :: natDigitsAux fuel ((n + 1) / 255)

/-- Self-delimiting encoding of a natural number: its base-255 digits followed
by the terminator 255. -/
def encNat (n : Nat) : List Nat := natDigitsAux n n ++ [255]

/-- Parser inverse of `encNat`. -/
def readNat : List Nat → Option (Nat × List Nat)
  | [] => none
  | b :: rest =>
    if b = 255 then some (0, rest)
    else
      match readNat rest with
      | some (n, rest') => some (b + 255 * n, rest')
      | none => none

/-- Encoding of an integer: a sign byte then the absolute value. -/
def encInt (i : ℤ) : List Nat := (if i < 0 then 1 else 0) :: encNat i.natAbs

/-- Parser inverse of `encInt`. -/
def readInt : List Nat → Option (ℤ × List Nat)
  | [] => none
  | b :: rest =>
    match readNat rest with
    | some (n, rest') => some (if b = 1 then -(n : ℤ) else (n : ℤ), rest')
    | none => none

/-- Encoding of a rational: numerator then denominator. -/
def encRat (q : ℚ) : List Nat := encInt q.num ++ encNat q.den

/-- Parser inverse of `encRat`. -/
def readRat (bs : List Nat) : Option (ℚ × List Nat) :=
  match readInt bs with
  | some (n, rest) =>
    match readNat rest with
    | some (d, rest') => some (mkRat n d, rest')
    | none => none
  | none => none

/-- Encoding of a character as its code point. -/
def encChar (c : Char) : List Nat := encNat c.toNat

/-- Parser inverse of `encChar`. -/
def readChar (bs : List Nat) : Option (Char × List Nat) :=
  match readNat bs with
  | some (n, rest) => some (Char.ofNat n, rest)
  | none => none

/-- Read a fixed count of items with a given item parser. -/
def readCount (rd : List Nat → Option (α × List Nat)) :
    Nat → List Nat → Option (List α × List Nat)
  | 0, bs => some ([], bs)
  | n + 1, bs =>
    match rd bs with
    | some (x, bs') =>
      match readCount rd n bs' with
      | some (xs, bs'') => some (x :: xs, bs'')
      | none => none
    | none => none

/-- Length-prefixed encoding of a list of items. -/
def encList (enc : α → List Nat) (l : List α) : List Nat :=
  encNat l.length ++ l.flatMap enc

/-- Parser inverse of `encList`. -/
def readList (rd : List Nat → Option (α × List Nat)) (bs : List Nat) :
    Option (List α × List Nat) :=
  match readNat bs with
  | some (n, bs') => readCount rd n bs'
  | none => none

/-- Length-prefixed encoding of a string. -/
def encString (s : String) : List Nat := encList encChar s.data

/-- Parser inverse of `encString`. -/
def readString (bs : List Nat) : Option (String × List Nat) :=
  match readList readChar bs with
  | some (cs, rest) => some (String.mk cs, rest)
  | none => none

/-- Encoding of a key/value metadata pair. -/
def encPair (p : String × String) : List Nat := encString p.1 ++ encString p.2

/-- Parser inverse of `encPair`. -/
def readPair (bs : List Nat) : Option ((String × String) × List Nat) :=
  match readString bs with
  | some (k, rest) =>
    match readString rest with
    | some (v, rest') => some ((k, v), rest')
    | none => none
  | none => none

/-- Encoding of an optional metadata map: a presence byte then the pairs. -/
def encMetadata : Option Metadata → List Nat
  | none => [0]
  | some m => 1 :: encList encPair m

/-- Parser inverse of `encMetadata`. -/
def readMetadata : List Nat → Option (Option Metadata × List Nat)
  | [] => none
  | b :: rest =>
    if b = 1 then
      match readList readPair rest with
      | some (m, rest') => some (some m, rest')
      | none => none
    else some (none, rest)

/-- Encoding of one record of the textual (JSON) form, embedding included. -/
def encChunkFull (c : EmbeddedChunk) : List Nat :=
  encString c.id ++ encString c.content ++ encMetadata c.metadata ++
    encList encRat c.embedding

/-- Parser inverse of `encChunkFull`. -/
def readChunkFull (bs : List Nat) : Option (EmbeddedChunk × List Nat) :=
  match readString bs with
  | some (id, r1) =>
    match readString r1 with
    | some (content, r2) =>
      match readMetadata r2 with
      | some (md, r3) =>
        match readList readRat r3 with
        | some (emb, r4) => some (⟨id, content, md, emb⟩, r4)
        | none => none
      | none => none
    | none => none
  | none => none

/-- Encoding of the whole textual form `{version, model, dimensions, chunks}`
(the JSON.stringify output of `serialize`, embeddings inline). -/
def encSerializedIndex (d : SerializedIndex) : List Nat :=
  encNat d.version ++ encString d.model ++ encNat d.dimensions ++
    encList encChunkFull d.chunks

/-- Parser inverse of `encSerializedIndex`. -/
def readSerializedIndex (bs : List Nat) : Option (SerializedIndex × List Nat) :=
  match readNat bs with
  | some (version, r1) =>
    match readString r1 with
    | some (model, r2) =>
      match readNat r2 with
      | some (dims, r3) =>
        match readList readChunkFull r3 with
        | some (cs, r4) => some (⟨version, model, dims, cs⟩, r4)
        | none => none
      | none => none
    | none => none
  | none => none

/-- toJSON: JSON.stringify of the serialized index. -/
def VectorStore.toJSON (s : VectorStore) : List Nat :=
  encSerializedIndex s.serialize

/-- fromJSON: JSON.parse (SyntaxError on garbage) then fromSerialized. -/
def VectorStore.fromJSON (bs : List Nat) : Except VErr VectorStore :=
  match readSerializedIndex bs with
  | some (d, _) => VectorStore.fromSerialized d
  | none => .error .syntaxError

/-! ### Binary codec -/

/-- Big-endian 4-byte encoding of a 32-bit value, as DataView.setUint32
writes it (the value is reduced mod 2^32). -/
def u32be (n : Nat) : List Nat :=
  [n % 2 ^ 32 / 2 ^ 24, n % 2 ^ 24 / 2 ^ 16, n % 2 ^ 16 / 2 ^ 8, n % 2 ^ 8]

/-- DataView.getUint32 with big-endian byte order; none models the RangeError
thrown on an out-of-bounds read. -/
def readU32 : List Nat → Option (Nat × List Nat)
  | b0 :: b1 :: b2 :: b3 :: rest =>
    some (b0 * 2 ^ 24 + b1 * 2 ^ 16 + b2 * 2 ^ 8 + b3, rest)
  | _ => none

/-- Round half to even, to an integer. -/
def rne (y : ℚ) : ℤ :=
  let f := qfloor y
  let r := qsub y ((f : ℤ) : ℚ)
  if r < mkRat 1 2 then f
  else if mkRat 1 2 < r then f + 1
  else if f % 2 = 0 then f else f + 1

/-- Floor of the base-2 logarithm of a positive rational: nlog2 of numerator
and denominator give a candidate window, resolved by comparison. -/
def qlog2 (x : ℚ) : ℤ :=
  let k : ℤ := (nlog2 x.num.natAbs : ℤ) - (nlog2 x.den : ℤ)
  if qzpow 2 (k + 1) ≤ x then k + 1
  else if qzpow 2 k ≤ x then k
  else k - 1

/-- Round-to-nearest-even binary32 quantization: what storing a JS number
into a Float32Array does to its value.  Normal and subnormal magnitudes are
modelled exactly (quantum 2 ^ (max e (-126) - 23)); values at or beyond
2 ^ 128, which real float32 arithmetic sends to infinity, keep a finite
24-bit-mantissa value in this model (no embedding produced by the system
reaches that range). -/
def roundF32 (x : ℚ) : ℚ :=
  if x = 0 then 0
  else
    let e : ℤ := max (qlog2 (qabs x)) (-126)
    let m : ℤ := rne (qmul (qabs x) (qzpow 2 (23 - e)))
    qmul (if x < 0 then ((-m : ℤ) : ℚ) else ((m : ℤ) : ℚ)) (qzpow 2 (e - 23))

/-- A record with its embedding quantized to float32 values: the effect of a
binary round trip on stored vectors. -/
def quantizeChunk (c : EmbeddedChunk) : EmbeddedChunk :=
  { c with embedding := c.embedding.map roundF32 }

/-- The metadata structure the binary format stores as its JSON block:
`{version, model, dimensions, chunkMeta}` with embeddings excluded. -/
structure BinMeta where
  version : Nat
  model : String
  dimensions : Nat
  chunkMeta : List ChunkView
deriving DecidableEq

/-- Encoding of the binary format's metadata block. -/
def encBinMeta (m : BinMeta) : List Nat :=
  encNat m.version ++ encString m.model ++ encNat m.dimensions ++
    encList (fun c : ChunkView =>
      encString c.id ++ encString c.content ++ encMetadata c.metadata)
      m.chunkMeta

/-- Parser inverse of `encBinMeta`. -/
def readBinMeta (bs : List Nat) : Option (BinMeta × List Nat) :=
  match readNat bs with
  | some (version, r1) =>
    match readString r1 with
    | some (model, r2) =>
      match readNat r2 with
      | some (dims, r3) =>
        match readList (fun bs' =>
            match readString bs' with
            | some (id, s1) =>
              match readString s1 with
              | some (content, s2) =>
                match readMetadata s2 with
                | some (md, s3) => some ((⟨id, content, md⟩ : ChunkView), s3)
                | none => none
              | none => none
            | none => none) r3 with
        | some (cs, r4) => some (⟨version, model, dims, cs⟩, r4)
        | none => none
      | none => none
    | none => none
  | none => none

/-- toBinary: 16-byte header (magic "RAGS", version, metadata byte length,
record count), the metadata block, zero padding to the next 4-byte-aligned
offset, then the vector block.  Each stored vector value is quantized to
float32 (`roundF32`) as the `Float32Array` write does; the 4-byte IEEE bit
pattern itself is modelled by the injective value serialization `encRat`. -/
def VectorStore.toBinary (s : VectorStore) : List Nat :=
  let json := encBinMeta
    ⟨1, s.model, s.dimensions, s.chunks.map (fun c => ⟨c.id, c.content, c.metadata⟩)⟩
  let headerSize := 16
  let unaligned := headerSize + json.length
  let padding := (4 - unaligned % 4) % 4
  u32be 0x52414753 ++ u32be 1 ++ u32be json.length ++ u32be s.chunks.length ++
    json ++ List.replicate padding 0 ++
    s.chunks.flatMap (fun c => c.embedding.flatMap (fun v => encRat (roundF32 v)))

/-- The record-reconstruction loop of fromBinary: record i pairs
`chunkMeta[i]` with the i-th dimensions-length slice of the vector block
(peeling `dims` values per record from the sequential float data). -/
def rebuildChunks (dims : Nat) : List ChunkView → List ℚ → List EmbeddedChunk
  | [], _ => []
  | m :: ms, vals =>
    ⟨m.id, m.content, m.metadata, vals.take dims⟩ ::
      rebuildChunks dims ms (vals.drop dims)

/-- fromBinary: check magic (else InvalidFormat), check version (else
UnsupportedVersion), read the metadata length and record count, decode the
metadata block, recompute the padding formula to locate the vector block,
read `count * dimensions` float values, rebuild the records and load them
into a fresh store through addAll. -/
def VectorStore.fromBinary (bs : List Nat) : Except VErr VectorStore :=
  match readU32 bs with
  | none => .error .rangeError
  | some (magic, _) =>
    if magic ≠ 0x52414753 then .error .invalidFormat
    else
      match readU32 (bs.drop 4) with
      | none => .error .rangeError
      | some (version, _) =>
        if version ≠ 1 then .error (.unsupportedVersion version)
        else
          match readU32 (bs.drop 8), readU32 (bs.drop 12) with
          | some (jsonLength, _), some (chunkCount, _) =>
            let headerSize := 16
            match readBinMeta ((bs.drop headerSize).take jsonLength) with
            | none => .error .syntaxError
            | some (meta, _) =>
              if chunkCount > meta.chunkMeta.length then .error .typeError
              else
                let unaligned := headerSize + jsonLength
                let padding := (4 - unaligned % 4) % 4
                let vectorOffset := unaligned + padding
                match readCount readRat (chunkCount * meta.dimensions)
                    (bs.drop vectorOffset) with
                | none => .error .rangeError
                | some (vals, _) =>
                  (VectorStore.new meta.model meta.dimensions).addAll
                    (rebuildChunks meta.dimensions
                      (meta.chunkMeta.take chunkCount) vals)
          | _, _ => .error .rangeError

/-! ## Chunker (src/chunker.ts)

JS strings are lists of characters; every scanning loop carries explicit fuel
(always instantiated with enough budget for the scan, and in the one loop of
the source whose termination is not evident, `hardSplitLoop`, exhaustion is
surfaced as a distinct error value). -/

/-- A JS string. -/
abbrev Str := List Char

/-- The JS whitespace class (regex \s and String.prototype.trim). -/
def isWS (c : Char) : Bool :=
  let n := c.toNat
  decide (n = 9 ∨ n = 10 ∨ n = 11 ∨ n = 12 ∨ n = 13 ∨ n = 32 ∨ n = 0xA0 ∨
    n = 0x1680 ∨ (0x2000 ≤ n ∧ n ≤ 0x200A) ∨ n = 0x2028 ∨ n = 0x2029 ∨
    n = 0x202F ∨ n = 0x205F ∨ n = 0x3000 ∨ n = 0xFEFF)

/-- Sentence-ending punctuation of the source regexes. -/
def isPunct (c : Char) : Bool := decide (c = '.' ∨ c = '!' ∨ c = '?')

/-- String.prototype.trim: drop whitespace from both ends. -/
def jstrim (s : Str) : Str :=
  ((s.dropWhile isWS).reverse.dropWhile isWS).reverse

/-- Scanner for split on the paragraph regex (two newlines then greedily any
more): a cut consumes the whole newline run. -/
def splitParaGo : Nat → Str → Str → List Str
  | 0, buf, rest => [buf ++ rest]
  | _ + 1, buf, [] => [buf]
  | fuel + 1, buf, c :: rest =>
    if c = '\n' ∧ rest.headD ' ' = '\n' then
      buf :: splitParaGo fuel [] (rest.dropWhile (fun c' => c' = '\n'))
    else splitParaGo fuel (buf ++ [c]) rest

/-- text.split(PARAGRAPH_SPLIT) with PARAGRAPH_SPLIT matching runs of two or
more newlines. -/
def splitPara (s : Str) : List Str := splitParaGo (s.length + 1) [] s

/-- Scanner for split on the sentence regex: a whitespace run immediately
preceded by sentence punctuation separates, the punctuation staying with the
left piece (the lookbehind is not consumed). -/
def splitSentGo : Nat → Str → Str → List Str
  | 0, buf, rest => [buf ++ rest]
  | _ + 1, buf, [] => [buf]
  | fuel + 1, buf, c :: rest =>
    if isPunct c ∧ isWS (rest.headD 'x') then
      (buf ++ [c]) :: splitSentGo fuel [] (rest.dropWhile isWS)
    else splitSentGo fuel (buf ++ [c]) rest

/-- segment.split(SENTENCE_SPLIT). -/
def splitSent (s : Str) : List Str := splitSentGo (s.length + 1) [] s

/-- Scanner for split on whitespace runs; as in JS, leading or trailing
whitespace yields an empty first or last piece. -/
def splitWSGo : Nat → Str → Str → List Str
  | 0, buf, rest => [buf ++ rest]
  | _ + 1, buf, [] => [buf]
  | fuel + 1, buf, c :: rest =>
    if isWS c then buf :: splitWSGo fuel [] (rest.dropWhile isWS)
    else splitWSGo fuel (buf ++ [c]) rest

/-- text.split(WORD_SPLIT). -/
def splitWS (s : Str) : List Str := splitWSGo (s.length + 1) [] s

/-- The over-long-word loop of splitByWords: consecutive fixed-size slices.
Only called with a positive maxSize (chunkSize is validated positive); the
fuel covers the whole word in that case. -/
def sliceChunksF : Nat → Str → Nat → List Str
  | 0, _, _ => []
  | _, [], _ => []
  | fuel + 1, w, maxSize => w.take maxSize :: sliceChunksF fuel (w.drop maxSize) maxSize

/-- Slices word.slice(i, i + maxSize) for i = 0, maxSize, 2*maxSize, ... -/
def sliceChunks (w : Str) (maxSize : Nat) : List Str :=
  sliceChunksF (w.length + 1) w maxSize

/-- The word-accumulation loop of splitByWords: flush the running buffer when
the next word would overflow; an over-long word flushes the buffer then is
emitted as raw fixed-size slices. -/
def splitByWordsGo (maxSize : Nat) : List Str → List Str → Str → List Str
  | [], chunks, current =>
    if jstrim current ≠ [] then chunks ++ [jstrim current] else chunks
  | word :: ws, chunks, current =>
    if word.length > maxSize then
      let chunks1 := if current ≠ [] then chunks ++ [jstrim current] else chunks
      splitByWordsGo maxSize ws (chunks1 ++ sliceChunks word maxSize) []
    else
      let candidate := if current ≠ [] then current ++ ' ' :: word else word
      if candidate.length ≤ maxSize then splitByWordsGo maxSize ws chunks candidate
      else
        let chunks1 := if current ≠ [] then chunks ++ [jstrim current] else chunks
        splitByWordsGo maxSize ws chunks1 word

/-- splitByWords of src/chunker.ts. -/
def splitByWords (text : Str) (maxSize : Nat) : List Str :=
  splitByWordsGo maxSize (splitWS text) [] []

/-- splitByBoundary of src/chunker.ts: paragraphs first; if any paragraph is
over-long, re-split the over-long ones by sentences and the over-long
sentences by words. -/
def splitByBoundary (text : Str) (maxSize : Nat) : List Str :=
  let segments := (splitPara text).filter (fun s => !(jstrim s).isEmpty)
  if segments.any (fun s => decide (s.length > maxSize)) then
    segments.flatMap (fun segment =>
      if segment.length ≤ maxSize then [segment]
      else
        let sentences := (splitSent segment).filter (fun s => !(jstrim s).isEmpty)
        sentences.flatMap (fun sentence =>
          if sentence.length ≤ maxSize then [sentence]
          else splitByWords sentence maxSize))
  else segments

/-- getOverlapText of src/chunker.ts: the last `overlap` characters, advanced
past the first whitespace when that whitespace is strictly inside the tail. -/
def getOverlapText (text : Str) (overlap : Nat) : Str :=
  if overlap = 0 ∨ text.length ≤ overlap then []
  else
    let slice := text.drop (text.length - overlap)
    match slice.findIdx? (fun c => isWS c) with
    | some wb =>
      if 0 < wb ∧ wb < slice.length - 1 then slice.drop (wb + 1) else slice
    | none => slice

/-- First match of the regex of a sentence ending (punctuation then a greedy
whitespace run) in a string: returns (index, match length). -/
def sentMatch : Str → Option (Nat × Nat)
  | [] => none
  | c :: rest =>
    if isPunct c ∧ isWS (rest.headD 'x') then
      some (0, 1 + (rest.takeWhile isWS).length)
    else
      match sentMatch rest with
      | some (i, l) => some (i + 1, l)
      | none => none

/-- text.lastIndexOf(' ', target): the last index of a literal space at or
before `target`. -/
def lastIndexOfSpace (text : Str) (target : Nat) : Option Nat :=
  let limit := min (target + 1) text.length
  match (text.take limit).reverse.findIdx? (fun c => decide (c = ' ')) with
  | some j => some (limit - 1 - j)
  | none => none

/-- findSplitPoint of src/chunker.ts: a sentence ending inside the window of
50 characters around the target wins; else the last space before the target
if it lies past half the target; else the target itself. -/
def findSplitPoint (text : Str) (target : Nat) : Nat :=
  if text.length ≤ target then text.length
  else
    let searchStart := target - 50
    let searchEnd := min text.length (target + 50)
    let searchRegion := (text.drop searchStart).take (searchEnd - searchStart)
    match sentMatch searchRegion with
    | some (idx, len) => searchStart + idx + len
    | none =>
      match lastIndexOfSpace text target with
      | some lastSpace => if 2 * lastSpace > target then lastSpace + 1 else target
      | none => target

/-- The while-loop of mergeSegments that repeatedly hard-splits an over-long
running chunk.  The source gives no termination argument for this loop, so it
runs on fuel; exhaustion (never reached in this development) is reported as
`none`.  Returns the pieces emitted, the final running chunk and the final
overlap buffer. -/
def hardSplitLoop : Nat → Str → Str → Nat → Nat → Option (List Str × Str × Str)
  | 0, _, _, _, _ => none
  | fuel + 1, current, overlapBuffer, chunkSize, overlap =>
    if current.length > chunkSize then
      let splitPoint := findSplitPoint current chunkSize
      let piece := jstrim (current.take splitPoint)
      let ob := getOverlapText (current.take splitPoint) overlap
      let remaining := jstrim (current.drop splitPoint)
      let current1 := if ob ≠ [] then ob ++ ' ' :: remaining else remaining
      match hardSplitLoop fuel current1 ob chunkSize overlap with
      | some (pieces, cur, ob2) => some (piece :: pieces, cur, ob2)
      | none => none
    else some ([], current, overlapBuffer)

/-- The main loop of mergeSegments: greedily extend the running chunk with
the next segment (joined by a blank line); on overflow, finalize the running
chunk, recompute the overlap tail, start anew from tail + segment when that
fits (else the segment alone), and hard-split while the running chunk is
over-long. -/
def mergeGo (chunkSize overlap fuel : Nat) :
    List Str → List Str → Str → Str → Option (List Str)
  | [], chunks, current, _ =>
    some (if jstrim current ≠ [] then chunks ++ [jstrim current] else chunks)
  | segment :: rest, chunks, current, overlapBuffer =>
    let sep := if current ≠ [] then ['\n', '\n'] else []
    let candidate := current ++ sep ++ segment
    if candidate.length ≤ chunkSize then
      mergeGo chunkSize overlap fuel rest chunks candidate overlapBuffer
    else
      let chunks1 := if current ≠ [] then chunks ++ [jstrim current] else chunks
      let ob1 :=
        if current ≠ [] ∧ overlap > 0 then getOverlapText current overlap
        else overlapBuffer
      let current1 :=
        if ob1 ≠ [] ∧ segment.length + ob1.length + 1 ≤ chunkSize then
          ob1 ++ ' ' :: segment
        else segment
      match hardSplitLoop fuel current1 ob1 chunkSize overlap with
      | some (pieces, cur2, ob2) =>
        mergeGo chunkSize overlap fuel rest (chunks1 ++ pieces) cur2 ob2
      | none => none

/-- mergeSegments of src/chunker.ts. -/
def mergeSegments (segments : List Str) (chunkSize overlap : Nat) :
    Option (List Str) :=
  if segments = [] then some []
  else
    let fuel := segments.foldr (fun s a => s.length + a) 0 + chunkSize + overlap + 10
    mergeGo chunkSize overlap fuel segments [] [] []

/-- Scanner for text.split(sep) with a literal nonempty separator: cut at
each leftmost non-overlapping occurrence. -/
def splitLitGo : Nat → Str → Str → Str → List Str
  | 0, buf, rest, _ => [buf ++ rest]
  | _ + 1, buf, [], _ => [buf]
  | fuel + 1, buf, c :: t, sep =>
    if sep ≠ [] ∧ sep.isPrefixOf (c :: t) then
      buf :: splitLitGo fuel [] ((c :: t).drop sep.length) sep
    else splitLitGo fuel (buf ++ [c]) t sep

/-- text.split(separator) for a literal separator. -/
def splitLit (text sep : Str) : List Str :=
  splitLitGo (text.length + 1) [] text sep

/-- Chunker error kinds, one constructor per thrown message of chunkText,
plus the fuel marker of the unproved-termination loop. -/
inductive ChunkErr where
  | sizeNotPositive
  | overlapNegative
  | overlapNotLessThanSize
  | nonTermination
deriving DecidableEq

/-- ChunkOptions of src/types.ts.  Sizes are integral JS numbers; the
separator, when present, is a literal string (a falsy empty string behaves
as no separator, as in the source's `if (separator)`). -/
structure ChunkOptions where
  chunkSize : Option ℤ := none
  chunkOverlap : Option ℤ := none
  separator : Option Str := none

/-- chunkText of src/chunker.ts: validate the options; with a (truthy)
separator, split on it, keep the pieces that survive a trim, return them
trimmed when they all fit, else merge; with no separator, return the trimmed
text when it fits (empty trim giving no chunks), else merge the
boundary-split segments. -/
def chunkText (text : Str) (options : ChunkOptions) : Except ChunkErr (List Str) :=
  let chunkSize := options.chunkSize.getD 512
  let chunkOverlap := options.chunkOverlap.getD 50
  if chunkSize ≤ 0 then .error .sizeNotPositive
  else if chunkOverlap < 0 then .error .overlapNegative
  else if chunkSize ≤ chunkOverlap then .error .overlapNotLessThanSize
  else
    let cs := chunkSize.toNat
    let co := chunkOverlap.toNat
    let sep := match options.separator with
      | some s => if s = [] then none else some s
      | none => none
    match sep with
    | some s =>
      let segments := (splitLit text s).filter (fun p => !(jstrim p).isEmpty)
      if segments.all (fun p => decide (p.length ≤ cs)) then
        .ok (segments.map jstrim)
      else
        match mergeSegments segments cs co with
        | some r => .ok r
        | none => .error .nonTermination
    | none =>
      if text.length ≤ cs then
        .ok (if jstrim text ≠ [] then [jstrim text] else [])
      else
        match mergeSegments (splitByBoundary text cs) cs co with
        | some r => .ok r
        | none => .error .nonTermination

/-! ## Bridging the kernel-evaluable arithmetic to the standard operations -/

theorem qadd_eq (a b : ℚ) : qadd a b = a + b := by
  have ha : (a.den : ℤ) ≠ 0 := Int.natCast_ne_zero.mpr a.den_nz
  have hb : (b.den : ℤ) ≠ 0 := Int.natCast_ne_zero.mpr b.den_nz
  rw [qadd, Rat.mkRat_eq_divInt, Nat.cast_mul]
  conv_rhs => rw [← Rat.num_divInt_den a, ← Rat.num_divInt_den b]
  rw [Rat.divInt_add_divInt _ _ ha hb]

theorem qmul_eq (a b : ℚ) : qmul a b = a * b := by
  rw [qmul, Rat.mkRat_eq_divInt, Nat.cast_mul]
  conv_rhs => rw [← Rat.num_divInt_den a, ← Rat.num_divInt_den b]
  rw [Rat.divInt_mul_divInt']

theorem qneg_eq (a : ℚ) : qneg a = -a := by
  rw [qneg, Rat.mkRat_eq_divInt, Rat.neg_def]

theorem qsub_eq (a b : ℚ) : qsub a b = a - b := by
  rw [qsub, qadd_eq, qneg_eq, sub_eq_add_neg]

theorem qinv_eq (a : ℚ) : qinv a = a⁻¹ := by
  rw [Rat.inv_def', qinv]
  by_cases h : a.num < 0
  · rw [if_pos h, Rat.mkRat_eq_divInt]
    have hn : (a.num.natAbs : ℤ) = -a.num := by omega
    rw [hn, Rat.neg_divInt_neg]
  · rw [if_neg h, Rat.mkRat_eq_divInt]
    have hn : (a.num.natAbs : ℤ) = a.num := by omega
    rw [hn]

theorem qdiv_eq (a b : ℚ) : qdiv a b = a / b := by
  rw [qdiv, qmul_eq, qinv_eq, div_eq_mul_inv]

@[simp] theorem dotProduct_cons (a b : ℚ) (as bs : List ℚ) :
    dotProduct (a :: as) (b :: bs) = a * b + dotProduct as bs := by
  rw [dotProduct, qadd_eq, qmul_eq]

@[simp] theorem dotProduct_nil_left (bs : List ℚ) : dotProduct [] bs = 0 := rfl

@[simp] theorem dotProduct_nil_right (as : List ℚ) : dotProduct as [] = 0 := by
  cases as <;> rfl

theorem scoreKey_eq (s : CosScore) :
    scoreKey s = if 0 ≤ s.num then s.num ^ 2 / s.den else -(s.num ^ 2 / s.den) := by
  simp only [scoreKey, qdiv_eq, qmul_eq, qneg_eq, ← pow_two]

theorem sumSq_nonneg (a : List ℚ) : 0 ≤ sumSq a := by
  induction a with
  | nil => simp [sumSq]
  | cons x xs ih =>
    rw [sumSq] at ih ⊢
    rw [dotProduct_cons]
    exact add_nonneg (mul_self_nonneg x) ih

/-! ## Claims C6, C10, C4 -/

/-- C6: insert raises DimensionMismatch (and the record sequence is
unchanged, nothing being appended) when the record's embedding length differs
from the declared dimensions; with the matching length it appends the record,
leaving the model, the dimensions and every previously stored record
unchanged. -/
theorem claim_C6 (s : VectorStore) (c : EmbeddedChunk) :
    (c.embedding.length ≠ s.dimensions →
      s.add c = .error (.dimensionMismatch s.dimensions c.embedding.length)) ∧
    (c.embedding.length = s.dimensions →
      s.add c = .ok ⟨s.model, s.dimensions, s.chunks ++ [c]⟩) := by
  constructor <;> intro h <;>
    simp [VectorStore.add, VectorStore.validateDimensions, h, bind, Except.bind]

/-- Witness for C6 at a store of dimensionality 1. -/
theorem claim_C6_witness :
    (VectorStore.new ("m") 1).add ⟨("a"), ("x"), none, [(0 : ℚ), 1]⟩ =
      .error (.dimensionMismatch 1 2) ∧
    (VectorStore.new ("m") 1).add ⟨("b"), ("y"), none, [(1 : ℚ)]⟩ =
      .ok ⟨("m"), 1, [⟨("b"), ("y"), none, [(1 : ℚ)]⟩]⟩ :=
  ⟨(claim_C6 _ _).1 (by decide),
   by simpa [VectorStore.new] using
     (claim_C6 (VectorStore.new ("m") 1) ⟨("b"), ("y"), none, [(1 : ℚ)]⟩).2 (by decide)⟩

/-- C10: clear empties the record sequence and remove touches only the record
sequence; neither changes the embedding model name nor the declared
dimensions. -/
theorem claim_C10 (s : VectorStore) (id : String) :
    s.clear.model = s.model ∧ s.clear.dimensions = s.dimensions ∧
    s.clear.chunks = [] ∧
    (s.remove id).2.model = s.model ∧ (s.remove id).2.dimensions = s.dimensions := by
  refine ⟨rfl, rfl, rfl, ?_, ?_⟩ <;> (unfold VectorStore.remove; split <;> rfl)

/-- C4 counterexample: from the empty index, two successful inserts of
records sharing the id "a" leave the store with duplicate ids, so insert does
not preserve the claimed uniqueness invariant. -/
theorem claim_C4_counterexample :
    (VectorStore.new ("m") 1).add ⟨("a"), ("x"), none, [(0 : ℚ)]⟩ =
      .ok ⟨("m"), 1, [⟨("a"), ("x"), none, [(0 : ℚ)]⟩]⟩ ∧
    (VectorStore.mk ("m") 1 [⟨("a"), ("x"), none, [(0 : ℚ)]⟩]).add
        ⟨("a"), ("y"), none, [(0 : ℚ)]⟩ =
      .ok ⟨("m"), 1, [⟨("a"), ("x"), none, [(0 : ℚ)]⟩, ⟨("a"), ("y"), none, [(0 : ℚ)]⟩]⟩ ∧
    ¬ uniqueIds ⟨("m"), 1,
      [⟨("a"), ("x"), none, [(0 : ℚ)]⟩, ⟨("a"), ("y"), none, [(0 : ℚ)]⟩]⟩ :=
  ⟨rfl, rfl, by decide⟩

/-- C4 (amended): remove and clear preserve the unique-ids invariant, and a
successful insert preserves it provided the inserted id is not already
present; insert itself performs no uniqueness check, so the invariant is a
caller obligation rather than one the index enforces. -/
theorem claim_C4 (s : VectorStore) (id : String) (c : EmbeddedChunk)
    (s' : VectorStore) (hu : uniqueIds s)
    (hfresh : ∀ c' ∈ s.chunks, c'.id ≠ c.id) (hadd : s.add c = .ok s') :
    uniqueIds (s.remove id).2 ∧ uniqueIds s.clear ∧ uniqueIds s' := by
  refine ⟨?_, ?_, ?_⟩
  · unfold VectorStore.remove
    split
    · exact hu
    · exact List.Nodup.sublist
        (List.Sublist.map _ (List.eraseIdx_sublist _ _)) hu
  · unfold uniqueIds VectorStore.clear
    simp
  · unfold VectorStore.add VectorStore.validateDimensions at hadd
    by_cases h : c.embedding.length = s.dimensions
    · simp [h, bind, Except.bind] at hadd
      rw [← hadd]
      unfold uniqueIds at hu ⊢
      simp only [List.map_append, List.map_cons, List.map_nil]
      rw [List.nodup_append]
      refine ⟨hu, List.nodup_singleton _, ?_⟩
      intro x hx hmem
      simp only [List.mem_singleton] at hmem
      subst hmem
      rcases List.mem_map.mp hx with ⟨c', hc', hid⟩
      exact hfresh c' hc' hid
    · simp [h, bind, Except.bind] at hadd

/-- Witness for C4 (amended) on a one-record store. -/
theorem claim_C4_witness :
    uniqueIds ((VectorStore.mk ("m") 1 [⟨("a"), ("x"), none, [(0 : ℚ)]⟩]).remove
      ("a")).2 ∧
    uniqueIds (VectorStore.mk ("m") 1 [⟨("a"), ("x"), none, [(0 : ℚ)]⟩]).clear ∧
    uniqueIds (VectorStore.mk ("m") 1
      [⟨("a"), ("x"), none, [(0 : ℚ)]⟩, ⟨("b"), ("y"), none, [(0 : ℚ)]⟩]) :=
  claim_C4 (VectorStore.mk ("m") 1 [⟨("a"), ("x"), none, [(0 : ℚ)]⟩]) ("a")
    ⟨("b"), ("y"), none, [(0 : ℚ)]⟩
    (VectorStore.mk ("m") 1
      [⟨("a"), ("x"), none, [(0 : ℚ)]⟩, ⟨("b"), ("y"), none, [(0 : ℚ)]⟩])
    (by decide) (by decide) rfl

/-! ## Claims C9, C7, C1 -/

/-- A finished merge yields chunks and an exhausted fuel budget yields the
nonTermination marker: no other error can come out of the merge step. -/
theorem mergeResult_shape (segs : List Str) (cs co : Nat) (e : ChunkErr)
    (he : (match mergeSegments segs cs co with
           | some r => (Except.ok r : Except ChunkErr (List Str))
           | none => .error .nonTermination) = .error e) :
    e = .nonTermination := by
  rcases hm : mergeSegments segs cs co with _ | r <;> rw [hm] at he <;> simp_all

/-- After validation, each branch of chunkText either returns chunks directly
or goes through the merge step, so the only possible error is the
nonTermination marker. -/
theorem chunkBranch_shape (c : Prop) [Decidable c] (l : List Str)
    (segs : List Str) (cs co : Nat) (e : ChunkErr)
    (he : (if c then (Except.ok l : Except ChunkErr (List Str))
           else match mergeSegments segs cs co with
                | some r => .ok r
                | none => .error .nonTermination) = .error e) :
    e = .nonTermination := by
  rw [ite_eq_iff] at he
  rcases he with ⟨-, he⟩ | ⟨-, he⟩
  · exact absurd he (by simp)
  · exact mergeResult_shape _ _ _ _ he

/-- C9: chunkText validates its numeric options before any processing:
nonpositive chunkSize, negative chunkOverlap, and chunkOverlap ≥ chunkSize
each raise the corresponding InvalidArgument error; with valid parameters no
InvalidArgument error is raised. -/
theorem claim_C9 (text : Str) (opts : ChunkOptions) :
    (opts.chunkSize.getD 512 ≤ 0 → chunkText text opts = .error .sizeNotPositive) ∧
    (0 < opts.chunkSize.getD 512 → opts.chunkOverlap.getD 50 < 0 →
      chunkText text opts = .error .overlapNegative) ∧
    (0 < opts.chunkSize.getD 512 → 0 ≤ opts.chunkOverlap.getD 50 →
      opts.chunkSize.getD 512 ≤ opts.chunkOverlap.getD 50 →
      chunkText text opts = .error .overlapNotLessThanSize) ∧
    (0 < opts.chunkSize.getD 512 → 0 ≤ opts.chunkOverlap.getD 50 →
      opts.chunkOverlap.getD 50 < opts.chunkSize.getD 512 →
      chunkText text opts ≠ .error .sizeNotPositive ∧
      chunkText text opts ≠ .error .overlapNegative ∧
      chunkText text opts ≠ .error .overlapNotLessThanSize) := by
  refine ⟨?_, ?_, ?_, ?_⟩
  · intro h1
    unfold chunkText
    rw [if_pos h1]
  · intro h1 h2
    unfold chunkText
    rw [if_neg (not_le.mpr h1), if_pos h2]
  · intro h1 h2 h3
    unfold chunkText
    rw [if_neg (not_le.mpr h1), if_neg (not_lt.mpr h2), if_pos h3]
  · intro h1 h2 h3
    suffices h : ∀ e, chunkText text opts = .error e → e = .nonTermination by
      refine ⟨fun hc => ?_, fun hc => ?_, fun hc => ?_⟩ <;> simpa using h _ hc
    intro e he
    unfold chunkText at he
    rw [if_neg (not_le.mpr h1), if_neg (not_lt.mpr h2), if_neg (not_le.mpr h3)] at he
    rcases hs : opts.separator with _ | s
    · simp only [hs] at he
      exact chunkBranch_shape _ _ _ _ _ _ he
    · simp only [hs] at he
      by_cases hnil : s = []
      · subst hnil
        exact chunkBranch_shape _ _ _ _ _ _ he
      · rw [if_neg hnil] at he
        exact chunkBranch_shape _ _ _ _ _ _ he

/-- Witness for C9 at concrete option values. -/
theorem claim_C9_witness :
    chunkText (("hi").data) ⟨some 0, none, none⟩ = .error .sizeNotPositive ∧
    chunkText (("hi").data) ⟨some 5, some (-1), none⟩ = .error .overlapNegative ∧
    chunkText (("hi").data) ⟨some 5, some 7, none⟩ = .error .overlapNotLessThanSize ∧
    chunkText (("hi").data) ⟨some 5, some 2, none⟩ ≠ .error .sizeNotPositive :=
  ⟨(claim_C9 _ _).1 (by decide),
   (claim_C9 _ _).2.1 (by decide) (by decide),
   (claim_C9 _ _).2.2.1 (by decide) (by decide) (by decide),
   ((claim_C9 _ _).2.2.2 (by decide) (by decide) (by decide)).1⟩

/-- C7: binary decode raises InvalidFormat when the first four bytes, read
big-endian, are not the magic constant 0x52414753; with the magic correct and
the version field at offset 4 different from 1 it raises UnsupportedVersion;
textual decode raises UnsupportedVersion whenever the version field is not 1;
in every such case the result is an error, so no index is returned. -/
theorem claim_C7 (bs : List Nat) (d : SerializedIndex) :
    (∀ m rest, readU32 bs = some (m, rest) → m ≠ 0x52414753 →
      VectorStore.fromBinary bs = .error .invalidFormat) ∧
    (∀ m rest v rest', readU32 bs = some (m, rest) → m = 0x52414753 →
      readU32 (bs.drop 4) = some (v, rest') → v ≠ 1 →
      VectorStore.fromBinary bs = .error (.unsupportedVersion v)) ∧
    (d.version ≠ 1 →
      VectorStore.fromSerialized d = .error (.unsupportedVersion d.version)) := by
  refine ⟨?_, ?_, ?_⟩
  · intro m rest h hm
    unfold VectorStore.fromBinary
    rw [h]
    simp [hm]
  · intro m rest v rest' h hm hv hv1
    unfold VectorStore.fromBinary
    rw [h]
    simp only [hm]
    rw [if_neg (by simp), hv]
    simp [hv1]
  · intro h
    unfold VectorStore.fromSerialized
    rw [if_pos h]

/-- Witness for C7: a buffer with a wrong magic, a buffer with magic right
and version 999, and a serialized index with version 999. -/
theorem claim_C7_witness :
    VectorStore.fromBinary (u32be 0x12345678 ++ List.replicate 12 0) =
      .error .invalidFormat ∧
    VectorStore.fromBinary (u32be 0x52414753 ++ u32be 999 ++ List.replicate 8 0) =
      .error (.unsupportedVersion 999) ∧
    VectorStore.fromSerialized ⟨999, ("m"), 1, []⟩ =
      .error (.unsupportedVersion 999) :=
  ⟨(claim_C7 (u32be 0x12345678 ++ List.replicate 12 0) ⟨999, ("m"), 1, []⟩).1
      0x12345678 _ rfl (by decide),
   (claim_C7 (u32be 0x52414753 ++ u32be 999 ++ List.replicate 8 0)
      ⟨999, ("m"), 1, []⟩).2.1 0x52414753 _ 999 _ rfl rfl rfl (by decide),
   (claim_C7 [] ⟨999, ("m"), 1, []⟩).2.2 (by decide)⟩

/-- C1 (evaluation of the code at the failing input): with chunkSize 10,
chunkOverlap 0 and separator ",", the comma-free 30-character input
"aaaaaaaaaaaaaaaaaaaa. bbbbbbbb" reaches mergeSegments as one over-long
segment, and findSplitPoint prefers the sentence boundary 22 characters in
(its window extends 50 characters past the target), so chunkText emits the
21-character chunk "aaaaaaaaaaaaaaaaaaaa." even though chunkSize is 10:
the universal length bound the claim states is violated. -/
theorem claim_C1 :
    chunkText (("aaaaaaaaaaaaaaaaaaaa. bbbbbbbb").data)
        ⟨some 10, some 0, some [',']⟩ =
      .ok [("aaaaaaaaaaaaaaaaaaaa.").data, ("bbbbbbbb").data] ∧
    (("aaaaaaaaaaaaaaaaaaaa.").data).length = 21 ∧ ¬ (21 ≤ 10) :=
  ⟨rfl, rfl, by decide⟩

/-! ## Claim C8 -/

theorem jstrim_eq_nil (s : Str) (h : ∀ c ∈ s, isWS c) : jstrim s = [] := by
  unfold jstrim
  rw [List.dropWhile_eq_nil_iff.mpr h]
  rfl

/-- Every character of a piece returned by the separator-split scanner comes
from the buffer or the remaining input. -/
theorem splitLitGo_chars (fuel : Nat) (buf rest sep : Str) (p : Str)
    (hp : p ∈ splitLitGo fuel buf rest sep) (c : Char) (hc : c ∈ p) :
    c ∈ buf ∨ c ∈ rest := by
  induction fuel generalizing buf rest with
  | zero =>
    simp only [splitLitGo, List.mem_singleton] at hp
    subst hp
    exact List.mem_append.mp hc
  | succ fuel ih =>
    cases rest with
    | nil =>
      simp only [splitLitGo, List.mem_singleton] at hp
      subst hp
      exact .inl hc
    | cons x t =>
      simp only [splitLitGo] at hp
      split at hp
      · rcases List.mem_cons.mp hp with rfl | hp'
        · exact .inl hc
        · rcases ih [] _ hp' with h | h
          · exact absurd h (List.not_mem_nil c)
          · exact .inr (List.mem_of_mem_drop h)
      · rcases ih (buf ++ [x]) t hp with h | h
        · rcases List.mem_append.mp h with h' | h'
          · exact .inl h'
          · simp only [List.mem_singleton] at h'
            subst h'
            exact .inr (List.mem_cons_self _ _)
        · exact .inr (List.mem_cons_of_mem x h)

/-- Every character of a piece returned by the paragraph-split scanner comes
from the buffer or the remaining input. -/
theorem splitParaGo_chars (fuel : Nat) (buf rest : Str) (p : Str)
    (hp : p ∈ splitParaGo fuel buf rest) (c : Char) (hc : c ∈ p) :
    c ∈ buf ∨ c ∈ rest := by
  induction fuel generalizing buf rest with
  | zero =>
    simp only [splitParaGo, List.mem_singleton] at hp
    subst hp
    exact List.mem_append.mp hc
  | succ fuel ih =>
    cases rest with
    | nil =>
      simp only [splitParaGo, List.mem_singleton] at hp
      subst hp
      exact .inl hc
    | cons x t =>
      simp only [splitParaGo] at hp
      split at hp
      · rcases List.mem_cons.mp hp with rfl | hp'
        · exact .inl hc
        · rcases ih [] _ hp' with h | h
          · exact absurd h (List.not_mem_nil c)
          · exact .inr (List.mem_cons_of_mem x ((List.dropWhile_sublist _).subset h))
      · rcases ih (buf ++ [x]) t hp with h | h
        · rcases List.mem_append.mp h with h' | h'
          · exact .inl h'
          · simp only [List.mem_singleton] at h'
            subst h'
            exact .inr (List.mem_cons_self _ _)
        · exact .inr (List.mem_cons_of_mem x h)

/-- On whitespace-only input, the no-separator branch of chunkText yields no
chunks: a fitting text trims to nothing, and an over-long text has every
paragraph piece filtered away before merging. -/
theorem chunkText_ws_noSep (text : Str) (cs co : Nat)
    (htrim : ∀ p : Str, (∀ c ∈ p, c ∈ text) → jstrim p = []) :
    (if text.length ≤ cs then
       (Except.ok (if jstrim text ≠ [] then [jstrim text] else []) :
         Except ChunkErr (List Str))
     else
       match mergeSegments (splitByBoundary text cs) cs co with
       | some r => .ok r
       | none => .error .nonTermination) = .ok [] := by
  have htext : jstrim text = [] := htrim text (fun c hc => hc)
  by_cases hfit : text.length ≤ cs
  · rw [if_pos hfit]
    simp [htext]
  · rw [if_neg hfit]
    have hb : splitByBoundary text cs = [] := by
      unfold splitByBoundary
      have hfil : (splitPara text).filter (fun s => !(jstrim s).isEmpty) = [] := by
        rw [List.filter_eq_nil_iff]
        intro p hp
        have hj : jstrim p = [] := htrim p (fun c hc => by
          rcases splitParaGo_chars (text.length + 1) [] text p hp c hc with h | h
          · exact absurd h (List.not_mem_nil c)
          · exact h)
        simp [hj]
      rw [hfil]
      simp
    rw [hb]
    rfl

/-- On whitespace-only input, the separator branch of chunkText filters every
piece away and returns no chunks. -/
theorem chunkText_ws_sep (text s : Str) (cs co : Nat)
    (htrim : ∀ p : Str, (∀ c ∈ p, c ∈ text) → jstrim p = []) :
    (if ((splitLit text s).filter (fun p => !(jstrim p).isEmpty)).all
          (fun p => decide (p.length ≤ cs)) then
       (Except.ok (((splitLit text s).filter
          (fun p => !(jstrim p).isEmpty)).map jstrim) : Except ChunkErr (List Str))
     else
       match mergeSegments ((splitLit text s).filter
          (fun p => !(jstrim p).isEmpty)) cs co with
       | some r => .ok r
       | none => .error .nonTermination) = .ok [] := by
  have hfil : (splitLit text s).filter (fun p => !(jstrim p).isEmpty) = [] := by
    rw [List.filter_eq_nil_iff]
    intro p hp
    have hj : jstrim p = [] := htrim p (fun c hc => by
      rcases splitLitGo_chars (text.length + 1) [] text s p hp c hc with h | h
      · exact absurd h (List.not_mem_nil c)
      · exact h)
    simp [hj]
  rw [hfil]
  simp

/-- C8: with no separator and a text that fits within chunkSize, chunkText
returns exactly the trimmed input as a single chunk, or no chunks when the
trim is empty; and every empty or whitespace-only input, of any length and
with any separator, yields no chunks. -/
theorem claim_C8 (text : Str) (opts : ChunkOptions)
    (hsize : 0 < opts.chunkSize.getD 512)
    (hov : 0 ≤ opts.chunkOverlap.getD 50)
    (hlt : opts.chunkOverlap.getD 50 < opts.chunkSize.getD 512) :
    (opts.separator = none → (text.length : ℤ) ≤ opts.chunkSize.getD 512 →
      chunkText text opts = .ok (if jstrim text ≠ [] then [jstrim text] else [])) ∧
    ((∀ c ∈ text, isWS c) → chunkText text opts = .ok []) := by
  have hv1 := not_le.mpr hsize
  have hv2 := not_lt.mpr hov
  have hv3 := not_le.mpr hlt
  constructor
  · intro hsep hfit
    unfold chunkText
    rw [if_neg hv1, if_neg hv2, if_neg hv3]
    simp only [hsep]
    have hfit' : text.length ≤ (opts.chunkSize.getD 512).toNat := by omega
    rw [if_pos hfit']
  · intro hws
    have htrim : ∀ p : Str, (∀ c ∈ p, c ∈ text) → jstrim p = [] :=
      fun p hsub => jstrim_eq_nil p (fun c hc => hws c (hsub c hc))
    unfold chunkText
    rw [if_neg hv1, if_neg hv2, if_neg hv3]
    rcases hs : opts.separator with _ | s
    · simp only [hs]
      exact chunkText_ws_noSep text _ _ htrim
    · simp only [hs]
      by_cases hnil : s = []
      · subst hnil
        exact chunkText_ws_noSep text _ _ htrim
      · rw [if_neg hnil]
        exact chunkText_ws_sep text s _ _ htrim

/-- Witness for C8: a short text surrounded by blanks, and a whitespace-only
text with a separator. -/
theorem claim_C8_witness :
    chunkText (("  hi  ").data) ⟨some 10, some 0, none⟩ = .ok [("hi").data] ∧
    chunkText (("   ").data) ⟨some 10, some 0, some [',']⟩ = .ok [] :=
  ⟨by
    rw [(claim_C8 (("  hi  ").data) ⟨some 10, some 0, none⟩ (by decide) (by decide)
        (by decide)).1 rfl (by decide)]
    rfl,
   (claim_C8 (("   ").data) ⟨some 10, some 0, some [',']⟩ (by decide) (by decide)
      (by decide)).2 (by decide)⟩

/-! ## Claim C3: the search contract

First the semantic justification of scoreKey: mapping a score num / sqrt den
to sign num * num ^ 2 / den preserves the real ordering. -/

/-- Monotonicity of the signed-square map on the reals. -/
theorem signedSq_mono (X Y : ℝ) (h : X ≤ Y) :
    (if 0 ≤ X then X ^ 2 else -(X ^ 2)) ≤ (if 0 ≤ Y then Y ^ 2 else -(Y ^ 2)) := by
  rcases le_or_lt 0 X with hX | hX <;> rcases le_or_lt 0 Y with hY | hY
  · rw [if_pos hX, if_pos hY]
    exact pow_le_pow_left₀ hX h 2
  · exact absurd (lt_of_le_of_lt (hX.trans h) hY) (lt_irrefl 0)
  · rw [if_neg (not_le.mpr hX), if_pos hY]
    nlinarith
  · rw [if_neg (not_le.mpr hX), if_neg (not_le.mpr hY)]
    nlinarith

/-- Strict monotonicity of the signed-square map on the reals. -/
theorem signedSq_strictMono (X Y : ℝ) (h : X < Y) :
    (if 0 ≤ X then X ^ 2 else -(X ^ 2)) < (if 0 ≤ Y then Y ^ 2 else -(Y ^ 2)) := by
  rcases le_or_lt 0 X with hX | hX <;> rcases le_or_lt 0 Y with hY | hY
  · rw [if_pos hX, if_pos hY]
    exact pow_lt_pow_left₀ h hX (by norm_num)
  · exact absurd (lt_of_le_of_lt (hX.trans h.le) hY) (lt_irrefl 0)
  · rw [if_neg (not_le.mpr hX), if_pos hY]
    nlinarith
  · rw [if_neg (not_le.mpr hX), if_neg (not_le.mpr hY)]
    nlinarith

/-- The rational scoreKey, cast to the reals, is the signed square of the
score's real value num / sqrt den. -/
theorem scoreKey_cast (s : CosScore) (hs : 0 < s.den) :
    ((scoreKey s : ℚ) : ℝ) =
      (if 0 ≤ (s.num : ℝ) / Real.sqrt (s.den : ℝ) then
        ((s.num : ℝ) / Real.sqrt (s.den : ℝ)) ^ 2
      else -(((s.num : ℝ) / Real.sqrt (s.den : ℝ)) ^ 2)) := by
  have hsd : (0 : ℝ) < Real.sqrt (s.den : ℝ) :=
    Real.sqrt_pos.mpr (by exact_mod_cast hs)
  have hsign : (0 ≤ (s.num : ℝ) / Real.sqrt (s.den : ℝ)) ↔ 0 ≤ s.num := by
    rw [le_div_iff₀ hsd, zero_mul]
    exact ⟨fun h => by exact_mod_cast h, fun h => by exact_mod_cast h⟩
  have hsq : ((s.num : ℝ) / Real.sqrt (s.den : ℝ)) ^ 2 = (s.num : ℝ) ^ 2 / (s.den : ℝ) := by
    rw [div_pow, Real.sq_sqrt (by positivity)]
  rw [scoreKey_eq, apply_ite (fun q : ℚ => (q : ℝ))]
  push_cast
  rw [hsq]
  exact if_congr hsign.symm rfl rfl

/-- The scoreKey order coincides with the real order of score values. -/
theorem scoreVal_le_iff (s t : CosScore) (hs : 0 < s.den) (ht : 0 < t.den) :
    ((s.num : ℝ) / Real.sqrt (s.den : ℝ) ≤ (t.num : ℝ) / Real.sqrt (t.den : ℝ)) ↔
      scoreKey s ≤ scoreKey t := by
  constructor
  · intro h
    have h2 := signedSq_mono _ _ h
    rw [← scoreKey_cast s hs, ← scoreKey_cast t ht] at h2
    exact_mod_cast h2
  · intro h
    by_contra hc
    push_neg at hc
    have h2 := signedSq_strictMono _ _ hc
    rw [← scoreKey_cast t ht, ← scoreKey_cast s hs] at h2
    have h3 : ((scoreKey s : ℚ) : ℝ) ≤ ((scoreKey t : ℚ) : ℝ) := by exact_mod_cast h
    exact absurd h3 (not_le.mpr h2)

/-! ### The stable descending insertion sort -/

theorem mem_insertDesc (r x : SearchResult) (l : List SearchResult) :
    x ∈ insertDesc r l ↔ x = r ∨ x ∈ l := by
  induction l with
  | nil => simp [insertDesc]
  | cons y ys ih =>
    rw [insertDesc]
    split
    · simp only [List.mem_cons, ih]
      tauto
    · simp

theorem pairwise_insertDesc (r : SearchResult) (l : List SearchResult)
    (h : l.Pairwise (fun x y => scoreKey y.score ≤ scoreKey x.score)) :
    (insertDesc r l).Pairwise (fun x y => scoreKey y.score ≤ scoreKey x.score) := by
  induction l with
  | nil => simp [insertDesc]
  | cons y ys ih =>
    rw [insertDesc]
    rcases List.pairwise_cons.mp h with ⟨hy, hys⟩
    split
    · rename_i hle
      refine List.pairwise_cons.mpr ⟨?_, ih hys⟩
      intro z hz
      rcases (mem_insertDesc r z ys).mp hz with rfl | hzys
      · exact hle
      · exact hy z hzys
    · rename_i hgt
      push_neg at hgt
      refine List.pairwise_cons.mpr ⟨?_, h⟩
      intro z hz
      rcases List.mem_cons.mp hz with rfl | hzys
      · exact hgt.le
      · exact le_trans (hy z hzys) hgt.le

theorem filter_insertDesc (r : SearchResult) (l : List SearchResult) (k : ℚ)
    (h : l.Pairwise (fun x y => scoreKey y.score ≤ scoreKey x.score)) :
    (insertDesc r l).filter (fun x => scoreKey x.score == k) =
      if scoreKey r.score = k then
        l.filter (fun x => scoreKey x.score == k) ++ [r]
      else l.filter (fun x => scoreKey x.score == k) := by
  induction l with
  | nil =>
    by_cases hk : scoreKey r.score = k <;>
      simp [insertDesc, List.filter_singleton, hk]
  | cons y ys ih =>
    rw [insertDesc]
    rcases List.pairwise_cons.mp h with ⟨hy, hys⟩
    split
    · rename_i hle
      rw [List.filter_cons, List.filter_cons, ih hys]
      by_cases hk : scoreKey r.score = k <;>
        by_cases hyk : scoreKey y.score = k <;>
        simp [hk, hyk]
    · rename_i hgt
      push_neg at hgt
      by_cases hk : scoreKey r.score = k
      · rw [if_pos hk]
        have hfil : (y :: ys).filter (fun x => scoreKey x.score == k) = [] := by
          rw [List.filter_eq_nil_iff]
          intro z hz
          have hzy : scoreKey z.score ≤ scoreKey y.score := by
            rcases List.mem_cons.mp hz with rfl | hzys
            · exact le_refl _
            · exact hy z hzys
          have hlt : scoreKey z.score < scoreKey r.score := lt_of_le_of_lt hzy hgt
          rw [hk] at hlt
          simp only [beq_iff_eq]
          exact ne_of_lt hlt
        rw [List.filter_cons, if_pos (by simpa using hk), hfil]
        rfl
      · rw [if_neg hk, List.filter_cons, if_neg (by simpa using hk)]

theorem sortFold_mem (l acc : List SearchResult) (x : SearchResult) :
    x ∈ l.foldl (fun acc r => insertDesc r acc) acc ↔ x ∈ acc ∨ x ∈ l := by
  induction l generalizing acc with
  | nil => simp
  | cons r rs ih =>
    rw [List.foldl_cons, ih]
    simp only [mem_insertDesc, List.mem_cons]
    tauto

theorem sortFold_pairwise (l acc : List SearchResult)
    (h : acc.Pairwise (fun x y => scoreKey y.score ≤ scoreKey x.score)) :
    (l.foldl (fun acc r => insertDesc r acc) acc).Pairwise
      (fun x y => scoreKey y.score ≤ scoreKey x.score) := by
  induction l generalizing acc with
  | nil => exact h
  | cons r rs ih => exact ih _ (pairwise_insertDesc r acc h)

theorem sortFold_filter (l acc : List SearchResult) (k : ℚ)
    (h : acc.Pairwise (fun x y => scoreKey y.score ≤ scoreKey x.score)) :
    (l.foldl (fun acc r => insertDesc r acc) acc).filter
        (fun x => scoreKey x.score == k) =
      acc.filter (fun x => scoreKey x.score == k) ++
        l.filter (fun x => scoreKey x.score == k) := by
  induction l generalizing acc with
  | nil => simp
  | cons r rs ih =>
    rw [List.foldl_cons, ih _ (pairwise_insertDesc r acc h),
      filter_insertDesc r acc k h, List.filter_cons]
    by_cases hk : scoreKey r.score = k
    · rw [if_pos hk, if_pos (by simpa using hk)]
      simp
    · rw [if_neg hk, if_neg (by simpa using hk)]

theorem stableSortDesc_mem (l : List SearchResult) (x : SearchResult) :
    x ∈ stableSortDesc l ↔ x ∈ l := by
  rw [stableSortDesc, sortFold_mem]
  simp

theorem stableSortDesc_pairwise (l : List SearchResult) :
    (stableSortDesc l).Pairwise (fun x y => scoreKey y.score ≤ scoreKey x.score) :=
  sortFold_pairwise l [] (List.Pairwise.nil)

theorem stableSortDesc_filter (l : List SearchResult) (k : ℚ) :
    (stableSortDesc l).filter (fun x => scoreKey x.score == k) =
      l.filter (fun x => scoreKey x.score == k) := by
  rw [stableSortDesc, sortFold_filter l [] k List.Pairwise.nil]
  simp

/-- The collect loop succeeds when every stored embedding has the query's
length, and every collected result has a positive score denominator, passes
the threshold in key order, and stems from a record accepted by the filter. -/
theorem collectResults_ok (q : List ℚ) (t : ℚ) (f : Option Metadata → Bool)
    (cs : List EmbeddedChunk) (hlen : ∀ c ∈ cs, c.embedding.length = q.length) :
    ∃ l, collectResults q t f cs = .ok l ∧
      ∀ r ∈ l, 0 < r.score.den ∧ scoreKey (ratScore t) ≤ scoreKey r.score ∧
        ∃ c ∈ cs, f c.metadata = true ∧ r.chunk = ⟨c.id, c.content, c.metadata⟩ := by
  induction cs with
  | nil => exact ⟨[], rfl, by simp⟩
  | cons c rest ih =>
    obtain ⟨l, hl, hprop⟩ := ih (fun c' h => hlen c' (List.mem_cons_of_mem c h))
    have hc : c.embedding.length = q.length := hlen c (List.mem_cons_self c rest)
    rw [collectResults]
    by_cases hf : f c.metadata
    · rw [if_pos hf]
      have hcs : ∃ sc, cosineSimilarity q c.embedding = .ok sc ∧ 0 < sc.den := by
        unfold cosineSimilarity
        rw [if_neg (by simp [hc])]
        simp only [qmul_eq]
        split
        · exact ⟨⟨0, 1⟩, rfl, one_pos⟩
        · rename_i hnz
          exact ⟨_, rfl, lt_of_le_of_ne
            (mul_nonneg (sumSq_nonneg _) (sumSq_nonneg _)) (Ne.symm hnz)⟩
      obtain ⟨sc, hsc, hden⟩ := hcs
      rw [hsc]
      simp only [bind, Except.bind, hl]
      by_cases hth : scoreKey (ratScore t) ≤ scoreKey sc
      · rw [if_pos hth]
        refine ⟨_, rfl, ?_⟩
        intro r hr
        rcases List.mem_cons.mp hr with rfl | hrl
        · exact ⟨hden, hth, c, List.mem_cons_self c rest, hf, rfl⟩
        · obtain ⟨h1, h2, c', hc', h3⟩ := hprop r hrl
          exact ⟨h1, h2, c', List.mem_cons_of_mem c hc', h3⟩
      · rw [if_neg hth]
        refine ⟨l, rfl, ?_⟩
        intro r hrl
        obtain ⟨h1, h2, c', hc', h3⟩ := hprop r hrl
        exact ⟨h1, h2, c', List.mem_cons_of_mem c hc', h3⟩
    · rw [if_neg hf, hl]
      refine ⟨l, rfl, ?_⟩
      intro r hrl
      obtain ⟨h1, h2, c', hc', h3⟩ := hprop r hrl
      exact ⟨h1, h2, c', List.mem_cons_of_mem c hc', h3⟩

/-- C3: with a query of the store's dimensionality (and the reachable-state
invariant that stored embeddings match the declared dimensions), search
returns a sequence sorted by descending real score value, every returned
score is at least the threshold (default 0), at most topK (default 5) results
are returned, every result comes from a record the metadata filter accepts,
and results of equal score keep their insertion order (the filtered
equal-score subsequences of the output are subsequences of the pre-sort
collect order). -/
theorem claim_C3 (s : VectorStore) (q : List ℚ) (opts : SearchOptions)
    (hq : q.length = s.dimensions)
    (hinv : ∀ c ∈ s.chunks, c.embedding.length = s.dimensions) :
    ∃ l rs,
      collectResults q (opts.threshold.getD 0) (opts.filter.getD (fun _ => true))
        s.chunks = .ok l ∧
      s.search q opts = .ok rs ∧
      rs.length ≤ opts.topK.getD 5 ∧
      (∀ r ∈ rs, ((opts.threshold.getD 0 : ℚ) : ℝ) ≤
        (r.score.num : ℝ) / Real.sqrt (r.score.den : ℝ)) ∧
      rs.Pairwise (fun a b => (b.score.num : ℝ) / Real.sqrt (b.score.den : ℝ) ≤
        (a.score.num : ℝ) / Real.sqrt (a.score.den : ℝ)) ∧
      (∀ r ∈ rs, ∃ c ∈ s.chunks, (opts.filter.getD (fun _ => true)) c.metadata = true ∧
        r.chunk = ⟨c.id, c.content, c.metadata⟩) ∧
      (∀ k : ℚ, ((rs.filter (fun r => scoreKey r.score == k))).Sublist
        (l.filter (fun r => scoreKey r.score == k))) := by
  obtain ⟨l, hl, hprop⟩ := collectResults_ok q (opts.threshold.getD 0)
    (opts.filter.getD (fun _ => true)) s.chunks
    (fun c hc => by rw [hinv c hc, hq])
  have hmemtake : ∀ r, r ∈ (stableSortDesc l).take (opts.topK.getD 5) → r ∈ l := by
    intro r hr
    exact (stableSortDesc_mem l r).mp ((List.take_sublist _ _).subset hr)
  refine ⟨l, (stableSortDesc l).take (opts.topK.getD 5), hl, ?_, ?_, ?_, ?_, ?_, ?_⟩
  · unfold VectorStore.search VectorStore.validateDimensions
    rw [if_neg (by simp [hq])]
    simp only [bind, Except.bind, hl]
  · exact List.length_take_le _ _
  · intro r hr
    obtain ⟨hden, hth, -⟩ := hprop r (hmemtake r hr)
    have h := (scoreVal_le_iff (ratScore (opts.threshold.getD 0)) r.score
      (by norm_num [ratScore]) hden).mpr hth
    simpa [ratScore, Real.sqrt_one] using h
  · have hkey := List.Pairwise.sublist
      (List.take_sublist (opts.topK.getD 5) (stableSortDesc l))
      (stableSortDesc_pairwise l)
    refine List.Pairwise.imp_of_mem ?_ hkey
    intro a b ha hb hab
    exact (scoreVal_le_iff b.score a.score (hprop b (hmemtake b hb)).1
      (hprop a (hmemtake a ha)).1).mpr hab
  · intro r hr
    exact (hprop r (hmemtake r hr)).2.2
  · intro k
    have h1 := List.Sublist.filter (fun r => scoreKey r.score == k)
      (List.take_sublist (opts.topK.getD 5) (stableSortDesc l))
    rw [stableSortDesc_filter l k] at h1
    exact h1

/-- Witness for C3: the spec's own example, an index of dimensionality 3
holding the three unit vectors, queried with the first one at topK 1. -/
theorem claim_C3_witness :
    ∃ l rs,
      collectResults [1, 0, 0] ((⟨some 1, none, none⟩ : SearchOptions).threshold.getD 0)
        ((⟨some 1, none, none⟩ : SearchOptions).filter.getD (fun _ => true))
        (VectorStore.mk ("m") 3
          [⟨("c1"), ("x"), none, [1, 0, 0]⟩, ⟨("c2"), ("y"), none, [0, 1, 0]⟩,
           ⟨("c3"), ("z"), none, [0, 0, 1]⟩]).chunks = .ok l ∧
      (VectorStore.mk ("m") 3
          [⟨("c1"), ("x"), none, [1, 0, 0]⟩, ⟨("c2"), ("y"), none, [0, 1, 0]⟩,
           ⟨("c3"), ("z"), none, [0, 0, 1]⟩]).search [1, 0, 0]
        ⟨some 1, none, none⟩ = .ok rs ∧
      rs.length ≤ (⟨some 1, none, none⟩ : SearchOptions).topK.getD 5 ∧
      (∀ r ∈ rs, (((⟨some 1, none, none⟩ : SearchOptions).threshold.getD 0 : ℚ) : ℝ) ≤
        (r.score.num : ℝ) / Real.sqrt (r.score.den : ℝ)) ∧
      rs.Pairwise (fun a b => (b.score.num : ℝ) / Real.sqrt (b.score.den : ℝ) ≤
        (a.score.num : ℝ) / Real.sqrt (a.score.den : ℝ)) ∧
      (∀ r ∈ rs, ∃ c ∈ (VectorStore.mk ("m") 3
          [⟨("c1"), ("x"), none, [1, 0, 0]⟩, ⟨("c2"), ("y"), none, [0, 1, 0]⟩,
           ⟨("c3"), ("z"), none, [0, 0, 1]⟩]).chunks,
        ((⟨some 1, none, none⟩ : SearchOptions).filter.getD (fun _ => true))
          c.metadata = true ∧ r.chunk = ⟨c.id, c.content, c.metadata⟩) ∧
      (∀ k : ℚ, ((rs.filter (fun r => scoreKey r.score == k))).Sublist
        (l.filter (fun r => scoreKey r.score == k))) :=
  claim_C3 (VectorStore.mk ("m") 3
      [⟨("c1"), ("x"), none, [1, 0, 0]⟩, ⟨("c2"), ("y"), none, [0, 1, 0]⟩,
       ⟨("c3"), ("z"), none, [0, 0, 1]⟩]) [1, 0, 0] ⟨some 1, none, none⟩
    (by decide) (by decide)

/-! ## Claim C5: cosine similarity -/

theorem cosineSimilarity_eq_ok (a b : List ℚ) (h : a.length = b.length) :
    cosineSimilarity a b =
      if sumSq a * sumSq b = 0 then .ok ⟨0, 1⟩
      else .ok ⟨dotProduct a b, sumSq a * sumSq b⟩ := by
  unfold cosineSimilarity
  rw [if_neg (by simp [h])]
  simp only [qmul_eq]

/-- The real value of a returned score is dot over the product of the
magnitudes (with the source's zero-magnitude guard giving 0 on both sides,
division by zero being zero over the reals). -/
theorem cosVal_formula (a b : List ℚ) (h : a.length = b.length) (sc : CosScore)
    (hs : cosineSimilarity a b = .ok sc) :
    (sc.num : ℝ) / Real.sqrt (sc.den : ℝ) =
      (dotProduct a b : ℝ) /
        (Real.sqrt ((sumSq a : ℚ) : ℝ) * Real.sqrt ((sumSq b : ℚ) : ℝ)) := by
  rw [cosineSimilarity_eq_ok a b h] at hs
  split at hs
  · rename_i hz
    injection hs with hs'
    subst hs'
    rcases mul_eq_zero.mp hz with h0 | h0 <;> simp [h0]
  · rename_i hz
    injection hs with hs'
    subst hs'
    dsimp only
    have hx : (0 : ℝ) ≤ ((sumSq a : ℚ) : ℝ) := by exact_mod_cast sumSq_nonneg a
    rw [show (((sumSq a * sumSq b : ℚ)) : ℝ) =
        ((sumSq a : ℚ) : ℝ) * ((sumSq b : ℚ) : ℝ) by push_cast; ring]
    rw [Real.sqrt_mul hx]

theorem dotProduct_neg_right (a b : List ℚ) :
    dotProduct a (b.map (fun x => -x)) = -dotProduct a b := by
  induction a generalizing b with
  | nil => simp
  | cons x xs ih =>
    cases b with
    | nil => simp
    | cons y ys =>
      simp only [List.map_cons, dotProduct_cons, ih]
      ring

theorem sumSq_map_neg (a : List ℚ) : sumSq (a.map (fun x => -x)) = sumSq a := by
  induction a with
  | nil => rfl
  | cons x xs ih =>
    simp only [sumSq, List.map_cons, dotProduct_cons] at ih ⊢
    rw [ih]
    ring

/-- C5: cosineSimilarity raises DimensionMismatch exactly on unequal lengths;
with equal lengths a zero magnitude yields the exact score 0 (never an
error); otherwise the score's real value is dot/(‖a‖·‖b‖), so a vector of
nonzero magnitude scores 1 against itself and -1 against its exact negation,
and a zero dot product scores 0. -/
theorem claim_C5 (a b : List ℚ) :
    (a.length ≠ b.length →
      cosineSimilarity a b = .error (.dimensionMismatch a.length b.length)) ∧
    (a.length = b.length → sumSq a * sumSq b = 0 →
      cosineSimilarity a b = .ok (ratScore 0)) ∧
    (a.length = b.length → ∀ sc, cosineSimilarity a b = .ok sc →
      (sc.num : ℝ) / Real.sqrt (sc.den : ℝ) =
        (dotProduct a b : ℝ) /
          (Real.sqrt ((sumSq a : ℚ) : ℝ) * Real.sqrt ((sumSq b : ℚ) : ℝ))) ∧
    (sumSq a ≠ 0 → ∀ sc, cosineSimilarity a a = .ok sc →
      (sc.num : ℝ) / Real.sqrt (sc.den : ℝ) = 1) ∧
    (sumSq a ≠ 0 → ∀ sc, cosineSimilarity a (a.map (fun x => -x)) = .ok sc →
      (sc.num : ℝ) / Real.sqrt (sc.den : ℝ) = -1) ∧
    (a.length = b.length → dotProduct a b = 0 →
      ∀ sc, cosineSimilarity a b = .ok sc →
      (sc.num : ℝ) / Real.sqrt (sc.den : ℝ) = 0) := by
  have hpos : sumSq a ≠ 0 → (0 : ℝ) < ((sumSq a : ℚ) : ℝ) := fun hne => by
    have h1 := lt_of_le_of_ne (sumSq_nonneg a) (Ne.symm hne)
    exact_mod_cast h1
  refine ⟨?_, ?_, ?_, ?_, ?_, ?_⟩
  · intro h
    unfold cosineSimilarity
    rw [if_pos h]
  · intro h hz
    rw [cosineSimilarity_eq_ok a b h, if_pos hz]
    rfl
  · exact fun h sc hs => cosVal_formula a b h sc hs
  · intro hne sc hs
    have hx := hpos hne
    rw [cosVal_formula a a rfl sc hs, show dotProduct a a = sumSq a from rfl,
      Real.mul_self_sqrt hx.le]
    exact div_self (ne_of_gt hx)
  · intro hne sc hs
    have hx := hpos hne
    have hlen : a.length = (a.map (fun x => -x)).length := (List.length_map _ _).symm
    rw [cosVal_formula a _ hlen sc hs, dotProduct_neg_right a a, sumSq_map_neg,
      show dotProduct a a = sumSq a from rfl, Real.mul_self_sqrt hx.le]
    push_cast
    rw [neg_div]
    rw [div_self (ne_of_gt hx)]
  · intro h hdot sc hs
    rw [cosVal_formula a b h sc hs, hdot]
    simp

/-- Witness for C5 at concrete vectors. -/
theorem claim_C5_witness :
    cosineSimilarity [(1 : ℚ), 2, 3] [1, 2] = .error (.dimensionMismatch 3 2) ∧
    cosineSimilarity [(0 : ℚ), 0] [1, 0] = .ok (ratScore 0) ∧
    (((25 : ℚ) : ℝ) / Real.sqrt ((625 : ℚ) : ℝ) = 1) ∧
    (((-25 : ℚ) : ℝ) / Real.sqrt ((625 : ℚ) : ℝ) = -1) ∧
    (((0 : ℚ) : ℝ) / Real.sqrt ((1 : ℚ) : ℝ) = 0) :=
  by
  refine ⟨(claim_C5 [(1 : ℚ), 2, 3] [1, 2]).1 (by decide),
    (claim_C5 [(0 : ℚ), 0] [1, 0]).2.1 rfl (by norm_num [sumSq]), ?_, ?_, ?_⟩
  · simpa using (claim_C5 [(3 : ℚ), 4] [(3 : ℚ), 4]).2.2.2.1 (by norm_num [sumSq]) ⟨25, 625⟩ (by rfl)
  · simpa using (claim_C5 [(3 : ℚ), 4] [(3 : ℚ), 4]).2.2.2.2.1 (by norm_num [sumSq]) ⟨-25, 625⟩ (by rfl)
  · simp

/-! ## Claim C2: codec round trips

Round-trip correctness of every component parser against its encoder. -/

theorem readNat_digits (fuel n : Nat) (h : n ≤ fuel) (rest : List Nat) :
    readNat (natDigitsAux fuel n ++ 255 :: rest) = some (n, rest) := by
  induction fuel generalizing n with
  | zero =>
    have h0 : n = 0 := Nat.le_zero.mp h
    subst h0
    rfl
  | succ fuel ih =>
    cases n with
    | zero => rfl
    | succ m =>
      have hd : ¬ ((m + 1) % 255 = 255) := by omega
      have hdiv : (m + 1) / 255 ≤ fuel := by
        have h2 : (m + 1) / 255 < m + 1 := Nat.div_lt_self (Nat.succ_pos m) (by norm_num)
        omega
      simp only [natDigitsAux, List.cons_append, readNat, if_neg hd,
        List.append_eq, ih _ hdiv]
      have hrec : (m + 1) % 255 + 255 * ((m + 1) / 255) = m + 1 := by omega
      rw [hrec]

theorem readNat_enc (n : Nat) (rest : List Nat) :
    readNat (encNat n ++ rest) = some (n, rest) := by
  rw [encNat, List.append_assoc, List.singleton_append]
  exact readNat_digits n n le_rfl rest

theorem readInt_enc (i : ℤ) (rest : List Nat) :
    readInt (encInt i ++ rest) = some (i, rest) := by
  rw [encInt, List.cons_append]
  simp only [readInt, readNat_enc]
  rcases lt_or_ge i 0 with h | h
  · rw [if_pos h]
    have hn : (↑i.natAbs : ℤ) = -i := by omega
    simp [hn]
  · rw [if_neg (not_lt.mpr h)]
    have hn : (↑i.natAbs : ℤ) = i := by omega
    simp [hn]

theorem readRat_enc (q : ℚ) (rest : List Nat) :
    readRat (encRat q ++ rest) = some (q, rest) := by
  rw [encRat, List.append_assoc]
  simp only [readRat, readInt_enc, readNat_enc, Rat.mkRat_self]

theorem readChar_enc (c : Char) (rest : List Nat) :
    readChar (encChar c ++ rest) = some (c, rest) := by
  simp only [encChar, readChar, readNat_enc, Char.ofNat_toNat]

theorem readCount_enc {α : Type} (rd : List Nat → Option (α × List Nat))
    (enc : α → List Nat) (hrd : ∀ x rest, rd (enc x ++ rest) = some (x, rest))
    (l : List α) (rest : List Nat) :
    readCount rd l.length (l.flatMap enc ++ rest) = some (l, rest) := by
  induction l with
  | nil => rfl
  | cons x xs ih =>
    simp only [List.length_cons, List.flatMap_cons, List.append_assoc, readCount,
      hrd x (xs.flatMap enc ++ rest), ih]

theorem readList_enc {α : Type} (rd : List Nat → Option (α × List Nat))
    (enc : α → List Nat) (hrd : ∀ x rest, rd (enc x ++ rest) = some (x, rest))
    (l : List α) (rest : List Nat) :
    readList rd (encList enc l ++ rest) = some (l, rest) := by
  rw [encList, List.append_assoc]
  simp only [readList, readNat_enc]
  exact readCount_enc rd enc hrd l rest

theorem readString_enc (s : String) (rest : List Nat) :
    readString (encString s ++ rest) = some (s, rest) := by
  simp only [encString, readString, readList_enc readChar encChar readChar_enc]

theorem readPair_enc (p : String × String) (rest : List Nat) :
    readPair (encPair p ++ rest) = some (p, rest) := by
  rw [encPair, List.append_assoc]
  simp only [readPair, readString_enc]

theorem readMetadata_enc (m : Option Metadata) (rest : List Nat) :
    readMetadata (encMetadata m ++ rest) = some (m, rest) := by
  cases m with
  | none => rfl
  | some md =>
    simp [encMetadata, readMetadata, readList_enc readPair encPair readPair_enc]

theorem readChunkFull_enc (c : EmbeddedChunk) (rest : List Nat) :
    readChunkFull (encChunkFull c ++ rest) = some (c, rest) := by
  rw [encChunkFull, List.append_assoc, List.append_assoc, List.append_assoc]
  simp only [readChunkFull, readString_enc, readMetadata_enc,
    readList_enc readRat encRat readRat_enc]

theorem readSerializedIndex_enc (d : SerializedIndex) (rest : List Nat) :
    readSerializedIndex (encSerializedIndex d ++ rest) = some (d, rest) := by
  rw [encSerializedIndex, List.append_assoc, List.append_assoc, List.append_assoc]
  simp only [readSerializedIndex, readNat_enc, readString_enc,
    readList_enc readChunkFull encChunkFull readChunkFull_enc]

theorem readBinMeta_enc (m : BinMeta) (rest : List Nat) :
    readBinMeta (encBinMeta m ++ rest) = some (m, rest) := by
  rw [encBinMeta, List.append_assoc, List.append_assoc, List.append_assoc]
  simp only [readBinMeta, readNat_enc, readString_enc]
  rw [readList_enc _ _ (fun c rest' => by
    rw [List.append_assoc, List.append_assoc]
    simp only [readString_enc, readMetadata_enc]) m.chunkMeta rest]

/-- addAll of records whose lengths all match the declared dimensions
succeeds and appends them in order. -/
theorem addAll_ok (s : VectorStore) (cs : List EmbeddedChunk)
    (h : ∀ c ∈ cs, c.embedding.length = s.dimensions) :
    s.addAll cs = .ok ⟨s.model, s.dimensions, s.chunks ++ cs⟩ := by
  induction cs generalizing s with
  | nil => simp [VectorStore.addAll]
  | cons c rest ih =>
    rw [VectorStore.addAll]
    have hc := h c (List.mem_cons_self _ _)
    rw [show s.add c = .ok ⟨s.model, s.dimensions, s.chunks ++ [c]⟩ from by
      simp [VectorStore.add, VectorStore.validateDimensions, hc, bind, Except.bind]]
    simp only [bind, Except.bind]
    rw [ih ⟨s.model, s.dimensions, s.chunks ++ [c]⟩
      (fun c' h' => h c' (List.mem_cons_of_mem _ h'))]
    simp

/-- JSON round trip: parse of stringify restores the exact store. -/
theorem fromJSON_toJSON (s : VectorStore)
    (hdim : ∀ c ∈ s.chunks, c.embedding.length = s.dimensions) :
    VectorStore.fromJSON s.toJSON = .ok s := by
  unfold VectorStore.toJSON VectorStore.fromJSON
  rw [show encSerializedIndex s.serialize =
    encSerializedIndex s.serialize ++ [] from (List.append_nil _).symm]
  rw [readSerializedIndex_enc s.serialize []]
  dsimp only
  unfold VectorStore.fromSerialized VectorStore.serialize
  rw [if_neg (by norm_num)]
  rw [addAll_ok (VectorStore.new s.model s.dimensions) s.chunks hdim]
  simp [VectorStore.new]

theorem readU32_u32be (n : Nat) (rest : List Nat) :
    readU32 (u32be n ++ rest) = some (n % 2 ^ 32, rest) := by
  simp only [u32be, List.cons_append, List.nil_append, readU32,
    Option.some.injEq, Prod.mk.injEq, and_true]
  omega

theorem u32be_length (n : Nat) : (u32be n).length = 4 := rfl

theorem drop4_u32be (n : Nat) (l : List Nat) : (u32be n ++ l).drop 4 = l :=
  List.drop_left' (u32be_length n)

/-- The flattened quantized vector block has recordCount * dimensions
entries. -/
theorem flat_quant_length (dims : Nat) (cs : List EmbeddedChunk)
    (h : ∀ c ∈ cs, c.embedding.length = dims) :
    (cs.flatMap (fun c => c.embedding.map roundF32)).length = cs.length * dims := by
  induction cs with
  | nil => simp
  | cons c rest ih =>
    have hc := h c (List.mem_cons_self _ _)
    simp only [List.flatMap_cons, List.length_append, List.length_map,
      List.length_cons, hc, ih (fun c' h' => h c' (List.mem_cons_of_mem _ h'))]
    ring

/-- Rebuilding records from the metadata views and the sequential quantized
values restores the quantized records. -/
theorem rebuildChunks_quant (dims : Nat) (cs : List EmbeddedChunk)
    (h : ∀ c ∈ cs, c.embedding.length = dims) :
    rebuildChunks dims (cs.map (fun c => ⟨c.id, c.content, c.metadata⟩))
      (cs.flatMap (fun c => c.embedding.map roundF32)) = cs.map quantizeChunk := by
  induction cs with
  | nil => rfl
  | cons c rest ih =>
    have hc : (c.embedding.map roundF32).length = dims := by
      rw [List.length_map]
      exact h c (List.mem_cons_self _ _)
    simp only [List.map_cons, List.flatMap_cons, rebuildChunks]
    rw [List.take_left' hc, List.drop_left' hc]
    rw [ih (fun c' h' => h c' (List.mem_cons_of_mem _ h'))]
    rfl

/-- Binary round trip: decode of encode restores the store with every
embedding value quantized to float32. -/
theorem fromBinary_toBinary (s : VectorStore)
    (hdim : ∀ c ∈ s.chunks, c.embedding.length = s.dimensions)
    (hjson : (encBinMeta ⟨1, s.model, s.dimensions,
        s.chunks.map (fun c => ⟨c.id, c.content, c.metadata⟩)⟩).length < 2 ^ 32)
    (hcount : s.chunks.length < 2 ^ 32) :
    VectorStore.fromBinary s.toBinary =
      .ok ⟨s.model, s.dimensions, s.chunks.map quantizeChunk⟩ := by
  have hmagic : (0x52414753 : Nat) % 2 ^ 32 = 0x52414753 := by norm_num
  have hone : (1 : Nat) % 2 ^ 32 = 1 := by norm_num
  set meta : BinMeta :=
    ⟨1, s.model, s.dimensions, s.chunks.map (fun c => ⟨c.id, c.content, c.metadata⟩)⟩
    with hmeta
  set J := encBinMeta meta with hJ
  set padding := (4 - (16 + J.length) % 4) % 4 with hpad
  set V := s.chunks.flatMap
    (fun c => c.embedding.flatMap (fun v => encRat (roundF32 v))) with hV
  have hB : s.toBinary =
      u32be 0x52414753 ++ (u32be 1 ++ (u32be J.length ++ (u32be s.chunks.length ++
        (J ++ (List.replicate padding 0 ++ V))))) := by
    rw [VectorStore.toBinary]
    simp only [List.append_assoc]
  have hdropJ : ∀ l : List Nat, (J ++ l).drop J.length = l :=
    fun l => List.drop_left' rfl
  have hdrop4 : s.toBinary.drop 4 =
      u32be 1 ++ (u32be J.length ++ (u32be s.chunks.length ++
        (J ++ (List.replicate padding 0 ++ V)))) := by
    rw [hB]; exact drop4_u32be _ _
  have hdrop8 : s.toBinary.drop 8 =
      u32be J.length ++ (u32be s.chunks.length ++
        (J ++ (List.replicate padding 0 ++ V))) := by
    have : s.toBinary.drop 8 = (s.toBinary.drop 4).drop 4 := by
      rw [List.drop_drop]
    rw [this, hdrop4]; exact drop4_u32be _ _
  have hdrop12 : s.toBinary.drop 12 =
      u32be s.chunks.length ++ (J ++ (List.replicate padding 0 ++ V)) := by
    have : s.toBinary.drop 12 = (s.toBinary.drop 8).drop 4 := by
      rw [List.drop_drop]
    rw [this, hdrop8]; exact drop4_u32be _ _
  have hdrop16 : s.toBinary.drop 16 = J ++ (List.replicate padding 0 ++ V) := by
    have : s.toBinary.drop 16 = (s.toBinary.drop 12).drop 4 := by
      rw [List.drop_drop]
    rw [this, hdrop12]; exact drop4_u32be _ _
  have hjlen : J.length % 2 ^ 32 = J.length := Nat.mod_eq_of_lt hjson
  have hclen : s.chunks.length % 2 ^ 32 = s.chunks.length := Nat.mod_eq_of_lt hcount
  rw [VectorStore.fromBinary]
  rw [show readU32 s.toBinary = some (0x52414753, u32be 1 ++ (u32be J.length ++
      (u32be s.chunks.length ++ (J ++ (List.replicate padding 0 ++ V))))) from by
    rw [hB, readU32_u32be, hmagic]]
  dsimp only
  rw [if_neg (by norm_num)]
  rw [show readU32 (s.toBinary.drop 4) = some (1, u32be J.length ++
      (u32be s.chunks.length ++ (J ++ (List.replicate padding 0 ++ V)))) from by
    rw [hdrop4, readU32_u32be, hone]]
  dsimp only
  rw [if_neg (by norm_num)]
  rw [show readU32 (s.toBinary.drop 8) = some (J.length, u32be s.chunks.length ++
      (J ++ (List.replicate padding 0 ++ V))) from by
    rw [hdrop8, readU32_u32be, hjlen]]
  rw [show readU32 (s.toBinary.drop 12) = some (s.chunks.length,
      J ++ (List.replicate padding 0 ++ V)) from by
    rw [hdrop12, readU32_u32be, hclen]]
  dsimp only
  rw [show (s.toBinary.drop 16).take J.length = J from by
    rw [hdrop16]; exact List.take_left' rfl]
  rw [show readBinMeta J = some (meta, []) from by
    rw [hJ, show encBinMeta meta = encBinMeta meta ++ [] from
      (List.append_nil _).symm]
    exact readBinMeta_enc meta []]
  dsimp only
  have hmetaLen : meta.chunkMeta.length = s.chunks.length := by
    rw [hmeta]; exact List.length_map _ _
  rw [if_neg (by rw [hmetaLen]; omega)]
  have hdropVec : s.toBinary.drop (16 + J.length + padding) = V := by
    have h1 : s.toBinary.drop (16 + J.length + padding) =
        ((s.toBinary.drop 16).drop J.length).drop padding := by
      rw [List.drop_drop, List.drop_drop]
      congr 1
      omega
    rw [h1, hdrop16, hdropJ, List.drop_left' (List.length_replicate _ _)]
  rw [hdropVec]
  have hreadVec : readCount readRat (s.chunks.length * meta.dimensions) V =
      some (s.chunks.flatMap (fun c => c.embedding.map roundF32), []) := by
    have hV2 : V = (s.chunks.flatMap (fun c => c.embedding.map roundF32)).flatMap
        encRat ++ [] := by
      rw [hV, List.append_nil, List.flatMap_assoc]
      congr 1
      funext c
      rw [List.flatMap_map]
    have hlen2 : s.chunks.length * meta.dimensions =
        (s.chunks.flatMap (fun c => c.embedding.map roundF32)).length := by
      rw [flat_quant_length s.dimensions s.chunks hdim, hmeta]
    rw [hV2, hlen2]
    exact readCount_enc readRat encRat readRat_enc _ []
  rw [hreadVec]
  dsimp only
  have htake : meta.chunkMeta.take s.chunks.length = meta.chunkMeta := by
    conv_lhs => rw [← hmetaLen]
    exact List.take_length _
  rw [htake]
  rw [hmeta]
  rw [rebuildChunks_quant s.dimensions s.chunks hdim]
  rw [addAll_ok (VectorStore.new s.model s.dimensions) (s.chunks.map quantizeChunk)
    (fun c' h' => by
      rcases List.mem_map.mp h' with ⟨c, hc, rfl⟩
      show (c.embedding.map roundF32).length = s.dimensions
      rw [List.length_map]
      exact hdim c hc)]
  simp [VectorStore.new]

/-- C2 (amended): decoding the encoding of an index restores it exactly
through the textual (JSON) codec; through the binary codec it restores the
model name, the dimensions and each record's id, content and metadata
exactly, while each embedding value comes back float32-quantized — so the
records are exactly equal whenever every stored value is representable as a
32-bit float (the binary vector block is a Float32Array). -/
theorem claim_C2 (s : VectorStore)
    (hdim : ∀ c ∈ s.chunks, c.embedding.length = s.dimensions)
    (hjson : (encBinMeta ⟨1, s.model, s.dimensions,
        s.chunks.map (fun c => ⟨c.id, c.content, c.metadata⟩)⟩).length < 2 ^ 32)
    (hcount : s.chunks.length < 2 ^ 32) :
    VectorStore.fromJSON s.toJSON = .ok s ∧
    VectorStore.fromBinary s.toBinary =
      .ok ⟨s.model, s.dimensions, s.chunks.map quantizeChunk⟩ ∧
    ((∀ c ∈ s.chunks, ∀ v ∈ c.embedding, roundF32 v = v) →
      VectorStore.fromBinary s.toBinary = .ok s) := by
  refine ⟨fromJSON_toJSON s hdim, fromBinary_toBinary s hdim hjson hcount, ?_⟩
  intro hfix
  rw [fromBinary_toBinary s hdim hjson hcount]
  have hmap : s.chunks.map quantizeChunk = s.chunks := by
    conv_rhs => rw [← List.map_id s.chunks]
    apply List.map_congr_left
    intro c hc
    unfold quantizeChunk
    have hemb : c.embedding.map roundF32 = c.embedding := by
      conv_rhs => rw [← List.map_id c.embedding]
      exact List.map_congr_left (fun v hv => hfix c hc v hv)
    rw [hemb]
    rfl
  rw [hmap]

/-- C2 counterexample: a store holding the single embedding value 1/10,
which is not representable as a 32-bit float, does not survive the binary
round trip unchanged: the value comes back as the float32 rounding
13421773/134217728, refuting embedding equality for the binary codec. -/
theorem claim_C2_counterexample :
    VectorStore.fromBinary (VectorStore.toBinary
        ⟨("m"), 1, [⟨("a"), ("c"), none, [mkRat 1 10]⟩]⟩) =
      .ok ⟨("m"), 1, [⟨("a"), ("c"), none, [mkRat 13421773 134217728]⟩]⟩ ∧
    (⟨("m"), 1, [⟨("a"), ("c"), none, [mkRat 13421773 134217728]⟩]⟩ : VectorStore) ≠
      ⟨("m"), 1, [⟨("a"), ("c"), none, [mkRat 1 10]⟩]⟩ :=
  ⟨rfl, by decide⟩

/-- Witness for C2 (amended) at a store whose single embedding value 1/2 is
float32-exact. -/
theorem claim_C2_witness :
    VectorStore.fromJSON (VectorStore.toJSON
        ⟨("m"), 1, [⟨("a"), ("c"), none, [mkRat 1 2]⟩]⟩) =
      .ok ⟨("m"), 1, [⟨("a"), ("c"), none, [mkRat 1 2]⟩]⟩ ∧
    VectorStore.fromBinary (VectorStore.toBinary
        ⟨("m"), 1, [⟨("a"), ("c"), none, [mkRat 1 2]⟩]⟩) =
      .ok ⟨("m"), 1, [⟨("a"), ("c"), none, [mkRat 1 2]⟩]⟩ :=
  ⟨(claim_C2 ⟨("m"), 1, [⟨("a"), ("c"), none, [mkRat 1 2]⟩]⟩ (by decide) (by decide)
      (by decide)).1,
   (claim_C2 ⟨("m"), 1, [⟨("a"), ("c"), none, [mkRat 1 2]⟩]⟩ (by decide) (by decide)
      (by decide)).2.2 (by decide)⟩

end RagJS
